import Mathlib

/-!
Verification development for the py-questdb-client repository.

Part 1 embeds the build script `setup.py` (the only file under `src/`):
the process environment is modelled as a map from variable names to
optional values, module-level initialization (the fuzzing CC/CXX
override), `ingress_extension`, the cargo argument construction and the
environment handed to the cargo subprocess, and the control flow of
`cargo_build`.

Part 2 models the ILP buffer / session core described by the
specification (the native layer is not present under `src/`, so those
definitions are modelled from the spec, as marked on each one).
-/

namespace QuestDBSetup

/-- The process environment: a total map from variable names to an
optional value (`none` means the variable is unset). -/
def Env : Type := String → Option String

/-- Set a variable in an environment (`os.environ[k] = v` / `env[k] = v`). -/
def envSet (e : Env) (k v : String) : Env :=
  fun x => if x = k then some v else e x

/-- Delete a variable from an environment (`del env[k]`). -/
def envDel (e : Env) (k : String) : Env :=
  fun x => if x = k then none else e x

/-- State produced by the module-level initialization of `setup.py`
(lines 24-30): the `INSTRUMENT_FUZZING` flag, the saved original values
`ORIG_CC` / `ORIG_CXX`, and the resulting process environment. -/
structure InitState where
  instrumentFuzzing : Bool
  origCC : Option String
  origCXX : Option String
  env : Env

/-- Module-level initialization of `setup.py`: if `TEST_QUESTDB_FUZZING`
is `'1'`, record the original `CC`/`CXX` and override them in the process
environment with `clang`/`clang++`; otherwise leave everything alone. -/
def moduleInit (e : Env) : InitState :=
  if e "TEST_QUESTDB_FUZZING" = some "1" then
    { instrumentFuzzing := true
      origCC := e "CC"
      origCXX := e "CXX"
      env := envSet (envSet e "CC" "clang") "CXX" "clang++" }
  else
    { instrumentFuzzing := false
      origCC := none
      origCXX := none
      env := e }

/-- The environment passed to the cargo build subprocess
(`setup.py` lines 142-151): a copy of the process environment in which,
when fuzzing instrumentation is on, `CC` and `CXX` are restored to their
original values (set back if one existed, deleted otherwise). -/
def cargoEnv (st : InitState) : Env :=
  if st.instrumentFuzzing then
    let e1 := match st.origCC with
      | some v => envSet st.env "CC" v
      | none => envDel st.env "CC"
    match st.origCXX with
      | some v => envSet e1 "CXX" v
      | none => envDel e1 "CXX"
  else st.env

/-- The `WIN_32BIT_CARGO_TARGET` constant from `setup.py`. -/
def WIN_32BIT_CARGO_TARGET : String := "i686-pc-windows-msvc"

/-- The argument list of the cargo subprocess invocation assembled by
`cargo_build` (`setup.py` lines 134-140 and 153-154): base args, the
`--target` flag exactly for a 32-bit win32 build, then the features. -/
def cargoBuildArgs (pf md : String) : List String :=
  let base := ["cargo", "build", "--release"]
  let withTarget :=
    if pf = "win32" ∧ md = "32bit" then
      base ++ ["--target=" ++ WIN_32BIT_CARGO_TARGET]
    else base
  withTarget ++ ["--features", "questdb-rs-ffi/confstr-ffi"]

/-- The fields of the `Extension` built by `ingress_extension` that the
claims speak about, together with the `lib_dir` local it selects. -/
structure IngressExt where
  libDir : List String
  libraries : List String
  extraCompileArgs : List String
  extraLinkArgs : List String
  extraObjects : List String

/-- Join a path (list of components) and a file name, mirroring
`str(loc / name)` with `/` as separator. -/
def pathJoin (dir : List String) (file : String) : String :=
  String.intercalate "/" (dir ++ [file])

/-- The `ingress_extension` function from `setup.py` (lines 33-85), as a function of
the platform string, the architecture mode and the fuzzing flag.  The
`raise NotImplementedError` branch becomes an `Except.error`. -/
def ingressExtension (pf md : String) (instr : Bool) : Except String IngressExt :=
  let libDir :=
    if pf = "win32" ∧ md = "32bit" then
      ["target", WIN_32BIT_CARGO_TARGET, "release"]
    else ["target", "release"]
  let extraCompileArgs :=
    if pf = "win32" ∧ md = "32bit" then []
    else if instr then ["-fsanitize=fuzzer-no-link"]
    else ["-flto"]
  let extraLinkArgs0 := extraCompileArgs
  if pf = "darwin" then
    Except.ok
      { libDir := libDir
        libraries := []
        extraCompileArgs := extraCompileArgs
        extraLinkArgs := extraLinkArgs0 ++
          ["-framework", "Security", "-framework", "CoreFoundation"]
        extraObjects :=
          [pathJoin libDir "libquestdb_client.a",
           pathJoin libDir "libpystr_to_utf8.a"] }
  else if pf = "win32" then
    Except.ok
      { libDir := libDir
        libraries := ["wsock32", "ws2_32", "ntdll", "AdvAPI32", "bcrypt",
          "UserEnv", "crypt32", "Secur32", "NCrypt"]
        extraCompileArgs := extraCompileArgs
        extraLinkArgs := extraLinkArgs0
        extraObjects :=
          [pathJoin libDir "questdb_client.lib",
           pathJoin libDir "pystr_to_utf8.lib"] }
  else if pf = "linux" then
    Except.ok
      { libDir := libDir
        libraries := []
        extraCompileArgs := extraCompileArgs
        extraLinkArgs := extraLinkArgs0
        extraObjects :=
          [pathJoin libDir "libquestdb_client.a",
           pathJoin libDir "libpystr_to_utf8.a"] }
  else
    Except.error ("Unsupported platform: " ++ pf)

/-- The external conditions `cargo_build` consults (`setup.py`
lines 106-156): filesystem probes, environment switches and the success
of each external command it may run. -/
structure BuildWorld where
  submoduleExists : Bool
  envSubmoduleInit : Option String
  gitUpdateOk : Bool
  cargoOnPath : Bool
  cargoPathExists : Bool
  envRustupInstall : Option String
  installRustOk : Bool
  cargoCallOk : Bool

/-- Outcome of running `cargo_build`: normal return, a raised
`CalledProcessError` from `subprocess.check_call`, or `sys.exit(code)`
after writing the given diagnostic lines to stderr. -/
inductive BuildOutcome where
  | ok
  | raised
  | exited (code : Nat) (diagnostics : List String)
deriving DecidableEq, Repr

/-- The stderr diagnostic emitted when the submodule is missing. -/
def submoduleDiag : List String :=
  ["Could not find `c-questdb-client` submodule.",
   "You might need to run:",
   "    git submodule update --init --recursive",
   "",
   "Alternatively specify the `SETUP_DO_GIT_SUBMODULE_INIT=1` env variable"]

/-- The stderr diagnostic emitted when cargo cannot be found. -/
def cargoDiag : List String :=
  ["Could not find the `cargo` executable.",
   "You may install it via http://rustup.rs/.",
   "",
   "Alternatively specify the `SETUP_DO_RUSTUP_INSTALL=1` env variable"]

/-- Control flow of `cargo_build` (`setup.py` lines 106-156): resolve the
submodule, resolve cargo, then run the cargo build subprocess. -/
def cargoBuild (w : BuildWorld) : BuildOutcome :=
  -- submodule phase
  if ¬ w.submoduleExists ∧ w.envSubmoduleInit ≠ some "1" then
    BuildOutcome.exited 1 submoduleDiag
  else if ¬ w.submoduleExists ∧ ¬ w.gitUpdateOk then
    BuildOutcome.raised
  else
    -- cargo phase
    if ¬ w.cargoOnPath ∧ ¬ w.cargoPathExists ∧
        w.envRustupInstall ≠ some "1" then
      BuildOutcome.exited 1 cargoDiag
    else if ¬ w.cargoOnPath ∧ ¬ w.cargoPathExists ∧ ¬ w.installRustOk then
      BuildOutcome.raised
    else
      -- final cargo invocation
      if w.cargoCallOk then BuildOutcome.ok else BuildOutcome.raised

end QuestDBSetup

namespace QuestDBCore

/-!
Modelled from the spec: the native ILP buffer / row builder / session
core of the client is not present under `src/` (the build script only
compiles it), so the definitions in this namespace are modelled from the
specification's words (sections 3, 4.1, 4.2, 4.4, 6, 7): per-context
escaping of reserved characters, row serialization, a reference ILP
parser, the Buffer with committed bytes and a pending row, commit /
discard semantics, flush retry and auto-flush triggering.  Field values
carry all five of the spec's variants — bool, integer, float, string and
timestamp — with the float as a decimal scaled integer, the exact
content of its wire token.
-/

/-- Modelled from the spec: escape a character sequence.  A newline is
encoded as backslash-`n` (so the output never contains a literal newline,
as section 4.1 requires of the escaper); every backslash and every
character the given per-context reserved-set accepts is prefixed with a
backslash; everything else passes through. -/
def escapeWith (sp : Char → Bool) : List Char → List Char
  | [] => []
  | c :: s =>
    (if c == '\n' then ['\\', 'n']
     else if c == '\\' || sp c then ['\\', c]
     else [c]) ++ escapeWith sp s

/-- Modelled from the spec: the reference parser's scanner.  Reads
characters up to the first unescaped delimiter, undoing backslash escapes
(backslash-`n` decodes to a newline, backslash before any other character
decodes to that character); returns the decoded content and the rest of
the input (which starts at the delimiter when one was found). -/
def scanUntil (d : Char → Bool) : List Char → List Char × List Char
  | [] => ([], [])
  | c :: rest =>
    if c == '\\' then
      match rest with
      | [] => ([], [])
      | c2 :: rest2 =>
        let p := scanUntil d rest2
        ((if c2 == 'n' then '\n' else c2) :: p.1, p.2)
    else if d c then ([], c :: rest)
    else
      let p := scanUntil d rest
      (c :: p.1, p.2)

/-- Reserved characters escaped in table names. -/
def tableSpecial (c : Char) : Bool := c == ',' || c == ' ' || c == '\n'

/-- Reserved characters escaped in column names and symbol values. -/
def nameSpecial (c : Char) : Bool := c == ',' || c == '=' || c == ' ' || c == '\n'

/-- Reserved characters escaped inside quoted string field values. -/
def strSpecial (c : Char) : Bool := c == '"' || c == '\n'

/-- Delimiters ending the table-name section (start of symbols/fields). -/
def tableDelim (c : Char) : Bool := c == ',' || c == ' '

/-- Delimiter separating a column name from its value. -/
def eqDelim (c : Char) : Bool := c == '='

/-- Delimiters ending an unquoted value token. -/
def valDelim (c : Char) : Bool := c == ',' || c == ' '

/-- Delimiter ending a quoted string value. -/
def quoteDelim (c : Char) : Bool := c == '"'

/-- Decimal digit character for a digit value (0-9). -/
def digitChar (d : Nat) : Char := Char.ofNat (48 + d)

/-- Is this character a decimal digit? -/
def isDig (c : Char) : Bool := decide (48 ≤ c.toNat ∧ c.toNat ≤ 57)

/-- Numeric value of a digit character. -/
def digitVal (c : Char) : Nat := c.toNat - 48

/-- Decimal digits of a natural number, most significant first. -/
def natToDigits (n : Nat) : List Char :=
  if _h : n < 10 then [digitChar n]
  else natToDigits (n / 10) ++ [digitChar (n % 10)]
termination_by n
decreasing_by
  exact Nat.div_lt_self (by omega) (by omega)

/-- Value of a run of decimal digit characters. -/
def digitsVal (l : List Char) : Nat :=
  l.foldl (fun a c => a * 10 + digitVal c) 0

/-- Decimal rendering of an integer (minus sign for negatives). -/
def intToChars (n : Int) : List Char :=
  if n < 0 then '-' :: natToDigits n.natAbs else natToDigits n.toNat

/-- Parse a nonempty all-digit character run as a natural number. -/
def parseNatChars (l : List Char) : Option Nat :=
  if l ≠ [] ∧ ∀ c ∈ l, isDig c = true then some (digitsVal l) else none

/-- Parse a decimal integer (optional leading minus sign). -/
def parseIntChars (l : List Char) : Option Int :=
  match l with
  | [] => none
  | c :: rest =>
    if c == '-' then (parseNatChars rest).map (fun k => -(Int.ofNat k))
    else (parseNatChars (c :: rest)).map Int.ofNat

/-- Decimal digits of a natural number padded with leading zeros to a
fixed width (the low digit last). -/
def natToDigitsPad : Nat → Nat → List Char
  | 0, _ => []
  | s + 1, n => natToDigitsPad s (n / 10) ++ [digitChar (n % 10)]

/-- Decimal rendering of the float value `m / 10 ^ s` with exactly `s`
fractional digits (for example `215 / 10 ^ 1` renders as `21.5`). -/
def floatChars (m : Int) (s : Nat) : List Char :=
  (if m < 0 then ['-'] else []) ++
    natToDigits (m.natAbs / 10 ^ s) ++ '.' :: natToDigitsPad s (m.natAbs % 10 ^ s)

/-- Split a token at its first decimal point. -/
def splitAtDot : List Char → Option (List Char × List Char)
  | [] => none
  | c :: rest =>
    if c == '.' then some ([], rest)
    else
      match splitAtDot rest with
      | some p => some (c :: p.1, p.2)
      | none => none

/-- Parse an unsigned decimal float token `digits.digits` into its scaled
integer value and its number of fractional digits. -/
def parseUFloat (l : List Char) : Option (Nat × Nat) :=
  match splitAtDot l with
  | some (ipd, fds) =>
    if ipd ≠ [] ∧ (∀ c ∈ ipd, isDig c = true) ∧ (∀ c ∈ fds, isDig c = true) then
      some (digitsVal ipd * 10 ^ fds.length + digitsVal fds, fds.length)
    else none
  | none => none

/-- Parse a decimal float token with an optional leading minus sign. -/
def parseFloatChars (l : List Char) : Option (Int × Nat) :=
  match l with
  | [] => none
  | c :: rest =>
    if c == '-' then (parseUFloat rest).map (fun p => (-(Int.ofNat p.1), p.2))
    else (parseUFloat (c :: rest)).map (fun p => (Int.ofNat p.1, p.2))

/-- Modelled from the spec: a typed field value — bool, integer, float,
string or timestamp (section 3).  The float carries a decimal scaled
integer (`ffloat m s` is the value `m / 10 ^ s` written with `s`
fractional digits), the exact content of the decimal wire token. -/
inductive FValue where
  | fbool (b : Bool)
  | fint (n : Int)
  | ffloat (m : Int) (s : Nat)
  | fstr (s : List Char)
  | ftimestamp (k : Int)
deriving DecidableEq, Repr

/-- Modelled from the spec: a row — table name, ordered symbol columns,
ordered typed field columns, optional nanosecond timestamp. -/
structure Row where
  table : List Char
  symbols : List (List Char × List Char)
  fields : List (List Char × FValue)
  timestamp : Option Int
deriving DecidableEq, Repr

/-- Wire form of a field value: `t`/`f` for bools, digits with a literal
`i` suffix for integers, a plain decimal for floats, a quoted escaped
string for strings, digits with a literal `t` suffix for timestamps. -/
def fvalueChars : FValue → List Char
  | FValue.fbool true => ['t']
  | FValue.fbool false => ['f']
  | FValue.fint n => intToChars n ++ ['i']
  | FValue.ffloat m s => floatChars m s
  | FValue.fstr s => '"' :: (escapeWith strSpecial s ++ ['"'])
  | FValue.ftimestamp k => intToChars k ++ ['t']

/-- Wire form of one symbol column: `,name=value`, escaped. -/
def symbolChars (s : List Char × List Char) : List Char :=
  ',' :: (escapeWith nameSpecial s.1 ++ '=' :: escapeWith nameSpecial s.2)

/-- Wire form of a list of symbol columns. -/
def symbolsChars : List (List Char × List Char) → List Char
  | [] => []
  | s :: ss => symbolChars s ++ symbolsChars ss

/-- Wire form of one field column: `name=value`, escaped. -/
def fieldChars (f : List Char × FValue) : List Char :=
  escapeWith nameSpecial f.1 ++ '=' :: fvalueChars f.2

/-- Wire form of the fields after the first: each preceded by a comma. -/
def fieldsRestChars : List (List Char × FValue) → List Char
  | [] => []
  | f :: fs => ',' :: (fieldChars f ++ fieldsRestChars fs)

/-- Wire form of the whole field section. -/
def fieldsBlock : List (List Char × FValue) → List Char
  | [] => []
  | f :: fs => fieldChars f ++ fieldsRestChars fs

/-- Wire form of the optional trailing timestamp. -/
def tsBlock : Option Int → List Char
  | none => []
  | some t => ' ' :: intToChars t

/-- Wire form of a row without the trailing newline:
`table,sym=val,... field=val,... timestamp`. -/
def serializeBody (r : Row) : List Char :=
  escapeWith tableSpecial r.table ++ symbolsChars r.symbols ++
    ' ' :: (fieldsBlock r.fields ++ tsBlock r.timestamp)

/-- Modelled from the spec: full wire form of a row, one line terminated
by a newline. -/
def serializeRow (r : Row) : List Char :=
  serializeBody r ++ ['\n']


/-! Scanner evaluation lemmas (one step of `scanUntil` on each input shape). -/

/-- Scanning the empty input. -/
theorem scanUntil_nil (d : Char → Bool) : scanUntil d [] = ([], []) := by
  rw [scanUntil.eq_def]

/-- Scanning past an escape pair decodes its second character. -/
theorem scanUntil_bs (d : Char → Bool) (c2 : Char) (rest2 : List Char) :
    scanUntil d ('\\' :: c2 :: rest2) =
      ((if c2 == 'n' then '\n' else c2) :: (scanUntil d rest2).1,
        (scanUntil d rest2).2) := by
  rw [scanUntil.eq_def]
  simp

/-- Scanning stops at an unescaped delimiter. -/
theorem scanUntil_cons_stop (d : Char → Bool) (c : Char) (rest : List Char)
    (hbs : c ≠ '\\') (hd : d c = true) :
    scanUntil d (c :: rest) = ([], c :: rest) := by
  rw [scanUntil.eq_def]
  simp [hbs, hd]

/-- Scanning passes over an ordinary character. -/
theorem scanUntil_cons_go (d : Char → Bool) (c : Char) (rest : List Char)
    (hbs : c ≠ '\\') (hd : d c = false) :
    scanUntil d (c :: rest) = (c :: (scanUntil d rest).1, (scanUntil d rest).2) := by
  rw [scanUntil.eq_def]
  simp [hbs, hd]

/-- The scanner never returns a rest longer than its input. -/
theorem scanUntil_rest_length (d : Char → Bool) (l : List Char) :
    (scanUntil d l).2.length ≤ l.length := by
  induction l using scanUntil.induct d with
  | case1 => simp [scanUntil_nil]
  | case2 c hbs =>
    have hc : c = '\\' := by simpa using hbs
    subst hc
    rw [scanUntil.eq_def]
    simp
  | case3 c hbs c2 rest2 ih =>
    have hc : c = '\\' := by simpa using hbs
    subst hc
    rw [scanUntil_bs]
    simp only [List.length_cons]
    omega
  | case4 c rest hbs hd =>
    rw [scanUntil_cons_stop d c rest (by simpa using hbs) hd]
  | case5 c rest hbs hd ih =>
    rw [scanUntil_cons_go d c rest (by simpa using hbs) (by simpa using hd)]
    simp only [List.length_cons]
    omega

/-- The rest of the input stops the scanner: it is empty or starts with a
delimiter. -/
def stopsAt (d : Char → Bool) (l : List Char) : Prop :=
  l = [] ∨ ∃ c r, l = c :: r ∧ d c = true

/-- On input that immediately stops it, the scanner returns no content. -/
theorem scanUntil_stop (d : Char → Bool) (hbs : d '\\' = false)
    (rest : List Char) (h : stopsAt d rest) :
    scanUntil d rest = ([], rest) := by
  rcases h with h | ⟨c, r, rfl, hc⟩
  · subst h
    exact scanUntil_nil d
  · have hne : c ≠ '\\' := by
      intro he
      rw [he, hbs] at hc
      exact Bool.noConfusion hc
    exact scanUntil_cons_stop d c r hne hc

/-- The scanner undoes the escaper: when every delimiter is in the escaped
set, the letter `n` is not in it, and no delimiter is a backslash,
scanning the escaped content followed by stopping input returns the
original content and that input. -/
theorem scanUntil_escapeWith (sp d : Char → Bool)
    (hsub : ∀ c, d c = true → sp c = true) (hbs : d '\\' = false)
    (hn : sp 'n' = false)
    (s : List Char) (rest : List Char) (h : stopsAt d rest) :
    scanUntil d (escapeWith sp s ++ rest) = (s, rest) := by
  induction s with
  | nil =>
    simp only [escapeWith, List.nil_append]
    exact scanUntil_stop d hbs rest h
  | cons a s ih =>
    by_cases hnl : (a == '\n') = true
    · have hae : a = '\n' := by simpa using hnl
      subst hae
      simp only [escapeWith, hnl, if_pos, List.cons_append, List.nil_append,
        List.append_assoc]
      rw [scanUntil_bs]
      rw [ih]
      simp
    · have hnlb : (a == '\n') = false := by
        cases hx : (a == '\n')
        · rfl
        · exact absurd hx hnl
      by_cases ha : (a == '\\' || sp a) = true
      · have han : a ≠ 'n' := by
          intro he
          subst he
          simp [hn] at ha
        simp only [escapeWith, hnlb, Bool.false_eq_true, if_false, ha, if_pos,
          List.cons_append, List.nil_append, List.append_assoc]
        rw [scanUntil_bs]
        rw [ih]
        simp [han]
      · have hab : (a == '\\' || sp a) = false := by
          cases hx : (a == '\\' || sp a)
          · rfl
          · exact absurd hx ha
        have ha1 : a ≠ '\\' := by
          intro he
          subst he
          simp at hab
        have ha2 : sp a = false := by
          cases hx : sp a
          · rfl
          · rw [hx] at hab
            simp at hab
        have ha3 : d a = false := by
          cases hx : d a
          · rfl
          · rw [hsub a hx] at ha2
            exact Bool.noConfusion ha2
        simp only [escapeWith, hnlb, hab, Bool.false_eq_true, if_false,
          List.cons_append, List.nil_append]
        rw [scanUntil_cons_go d a _ ha1 ha3]
        rw [ih]

/-- Content free of delimiters and backslashes passes through the scanner
unchanged. -/
theorem scanUntil_clean (d : Char → Bool) (hbs : d '\\' = false)
    (l : List Char) (hl : ∀ c ∈ l, d c = false ∧ c ≠ '\\')
    (rest : List Char) (h : stopsAt d rest) :
    scanUntil d (l ++ rest) = (l, rest) := by
  induction l with
  | nil =>
    simp only [List.nil_append]
    exact scanUntil_stop d hbs rest h
  | cons a l ih =>
    have ha := hl a (by simp)
    rw [List.cons_append, scanUntil_cons_go d a _ ha.2 ha.1]
    rw [ih (fun c hc => hl c (by simp [hc]))]

/-- Modelled from the spec: parse the symbol section — a possibly empty
run of `,name=value` groups — returning the decoded symbols and the rest
of the input.  The fuel bounds the number of groups; callers pass the
input length, which always suffices. -/
def parseSymbols (fuel : Nat) (l : List Char) :
    Option (List (List Char × List Char) × List Char) :=
  match l with
  | [] => some ([], [])
  | c :: rest =>
    if c == ',' then
      match fuel with
      | 0 => none
      | fuel2 + 1 =>
        match scanUntil eqDelim rest with
        | (name, c2 :: rest2) =>
          if c2 == '=' then
            match parseSymbols fuel2 (scanUntil valDelim rest2).2 with
            | some (syms, r) =>
              some ((name, (scanUntil valDelim rest2).1) :: syms, r)
            | none => none
          else none
        | (_, []) => none
    else some ([], c :: rest)

/-- Modelled from the spec: classify an unquoted value token — `t`/`f`
booleans, integer digits with the literal `i` suffix, timestamp digits
with the literal `t` suffix, or a decimal float. -/
def classifyToken (l : List Char) : Option FValue :=
  if l = ['t'] then some (FValue.fbool true)
  else if l = ['f'] then some (FValue.fbool false)
  else if l.getLast? = some 'i' then (parseIntChars l.dropLast).map FValue.fint
  else if l.getLast? = some 't' then
    (parseIntChars l.dropLast).map FValue.ftimestamp
  else (parseFloatChars l).map (fun p => FValue.ffloat p.1 p.2)

/-- Modelled from the spec: parse a field value from the input — either a
quoted escaped string or an unquoted token — returning the value and the
rest of the input. -/
def parseFieldValue (l : List Char) : Option (FValue × List Char) :=
  match l with
  | [] => none
  | c :: rest =>
    if c == '"' then
      match scanUntil quoteDelim rest with
      | (s, '"' :: rest2) => some (FValue.fstr s, rest2)
      | _ => none
    else
      match classifyToken (scanUntil valDelim (c :: rest)).1 with
      | some v => some (v, (scanUntil valDelim (c :: rest)).2)
      | none => none

/-- A successful field-value parse never returns a rest longer than its
input. -/
theorem parseFieldValue_rest_length (l : List Char) (v : FValue) (r : List Char)
    (h : parseFieldValue l = some (v, r)) : r.length ≤ l.length := by
  cases l with
  | nil => simp [parseFieldValue] at h
  | cons c rest =>
    simp only [parseFieldValue] at h
    split at h
    · split at h
      · rename_i s rest2 heq
        have hA := scanUntil_rest_length quoteDelim rest
        rw [heq] at hA
        dsimp only at hA
        simp only [Option.some.injEq, Prod.mk.injEq] at h
        rw [← h.2]
        simp only [List.length_cons] at hA ⊢
        omega
      · exact absurd h (by simp)
    · split at h
      · rename_i v2 heq
        have hA := scanUntil_rest_length valDelim (c :: rest)
        simp only [Option.some.injEq, Prod.mk.injEq] at h
        rw [← h.2]
        exact hA
      · exact absurd h (by simp)

/-- Modelled from the spec: parse the fields after the first — a possibly
empty run of `,name=value` groups.  The fuel bounds the number of groups;
callers pass the input length, which always suffices. -/
def parseFieldsRest (fuel : Nat) (l : List Char) :
    Option (List (List Char × FValue) × List Char) :=
  match l with
  | [] => some ([], [])
  | c :: rest =>
    if c == ',' then
      match fuel with
      | 0 => none
      | fuel2 + 1 =>
        match scanUntil eqDelim rest with
        | (name, c2 :: rest2) =>
          if c2 == '=' then
            match parseFieldValue rest2 with
            | some (v, rest3) =>
              match parseFieldsRest fuel2 rest3 with
              | some (flds, r) => some ((name, v) :: flds, r)
              | none => none
            | none => none
          else none
        | (_, []) => none
    else some ([], c :: rest)

/-- Modelled from the spec: parse the whole field section (at least one
field, then any number of comma-separated further fields). -/
def parseFields (fuel : Nat) (l : List Char) :
    Option (List (List Char × FValue) × List Char) :=
  match scanUntil eqDelim l with
  | (name, c2 :: rest2) =>
    if c2 == '=' then
      match parseFieldValue rest2 with
      | some (v, rest3) =>
        match parseFieldsRest fuel rest3 with
        | some (flds, r) => some ((name, v) :: flds, r)
        | none => none
      | none => none
    else none
  | (_, []) => none

/-- Modelled from the spec: parse the optional trailing timestamp
(empty input means no timestamp; otherwise a space and an integer). -/
def parseTs (l : List Char) : Option (Option Int) :=
  match l with
  | [] => some none
  | c :: rest => if c == ' ' then (parseIntChars rest).map some else none

/-- Modelled from the spec: the reference ILP parser for one row line.
Requires the trailing newline, then decodes table name, symbols, fields
and optional timestamp. -/
def parseRow (l : List Char) : Option Row :=
  if l.getLast? = some '\n' then
    match scanUntil tableDelim l.dropLast with
    | (table, rest1) =>
      match parseSymbols l.length rest1 with
      | some (syms, c :: rest3) =>
        if c == ' ' then
          match parseFields l.length rest3 with
          | some (flds, rest4) =>
            match parseTs rest4 with
            | some ts =>
              some { table := table, symbols := syms, fields := flds, timestamp := ts }
            | none => none
          | none => none
        else none
      | _ => none
  else none


/-! Decimal digit round-trip lemmas. -/

/-- Digit characters are digits. -/
theorem isDig_digitChar (d : Nat) (h : d < 10) : isDig (digitChar d) = true := by
  interval_cases d <;> decide

/-- Digit characters decode to their digit. -/
theorem digitVal_digitChar (d : Nat) (h : d < 10) : digitVal (digitChar d) = d := by
  interval_cases d <;> decide

/-- Appending one digit multiplies the decoded value by ten. -/
theorem digitsVal_concat (l : List Char) (c : Char) :
    digitsVal (l ++ [c]) = digitsVal l * 10 + digitVal c := by
  simp [digitsVal, List.foldl_append]

/-- A rendered natural number is never empty. -/
theorem natToDigits_ne_nil (n : Nat) : natToDigits n ≠ [] := by
  rw [natToDigits]
  by_cases h : n < 10
  · simp [h]
  · simp [h]

/-- Every character of a rendered natural number is a digit. -/
theorem natToDigits_all_dig (n : Nat) : ∀ c ∈ natToDigits n, isDig c = true := by
  induction n using Nat.strong_induction_on with
  | _ n ih =>
    rw [natToDigits]
    by_cases h : n < 10
    · simp only [h, dif_pos, List.mem_singleton]
      intro c hc
      subst hc
      exact isDig_digitChar n h
    · simp only [h, dif_neg, not_false_eq_true, List.mem_append, List.mem_singleton]
      intro c hc
      rcases hc with hc | hc
      · exact ih (n / 10) (Nat.div_lt_self (by omega) (by omega)) c hc
      · subst hc
        exact isDig_digitChar (n % 10) (Nat.mod_lt n (by omega))

/-- Rendering then decoding a natural number is the identity. -/
theorem digitsVal_natToDigits (n : Nat) : digitsVal (natToDigits n) = n := by
  induction n using Nat.strong_induction_on with
  | _ n ih =>
    rw [natToDigits]
    by_cases h : n < 10
    · simp only [h, dif_pos]
      have h1 : digitsVal [digitChar n] = digitVal (digitChar n) := by
        simp [digitsVal]
      rw [h1, digitVal_digitChar n h]
    · simp only [h, dif_neg, not_false_eq_true]
      rw [digitsVal_concat]
      rw [ih (n / 10) (Nat.div_lt_self (by omega) (by omega))]
      rw [digitVal_digitChar (n % 10) (Nat.mod_lt n (by omega))]
      omega

/-- A digit character is none of the wire format's structural characters. -/
theorem isDig_ne (c : Char) (h : isDig c = true) :
    c ≠ ',' ∧ c ≠ ' ' ∧ c ≠ '\\' ∧ c ≠ '"' ∧ c ≠ '=' ∧ c ≠ '-' ∧ c ≠ '\n' := by
  refine ⟨?_, ?_, ?_, ?_, ?_, ?_, ?_⟩ <;>
    · intro he
      subst he
      exact absurd h (by decide)

/-- Parsing the rendered digits of a natural number recovers it. -/
theorem parseNatChars_natToDigits (n : Nat) :
    parseNatChars (natToDigits n) = some n := by
  rw [parseNatChars, if_pos ⟨natToDigits_ne_nil n, natToDigits_all_dig n⟩]
  rw [digitsVal_natToDigits]

/-- Every character of a rendered integer is a digit or the minus sign. -/
theorem intToChars_chars (n : Int) :
    ∀ c ∈ intToChars n, c = '-' ∨ isDig c = true := by
  rw [intToChars]
  by_cases h : n < 0
  · simp only [h, if_pos, List.mem_cons]
    intro c hc
    rcases hc with hc | hc
    · exact Or.inl hc
    · exact Or.inr (natToDigits_all_dig n.natAbs c hc)
  · simp only [h, if_neg, not_false_eq_true]
    intro c hc
    exact Or.inr (natToDigits_all_dig n.toNat c hc)

/-- Parsing the rendering of an integer recovers it. -/
theorem parseIntChars_intToChars (n : Int) :
    parseIntChars (intToChars n) = some n := by
  by_cases h : n < 0
  · rw [intToChars, if_pos h]
    rw [parseIntChars]
    simp only [beq_self_eq_true, if_pos]
    rw [parseNatChars_natToDigits]
    simp only [Option.map_some', Option.some.injEq, Int.ofNat_eq_natCast]
    omega
  · rw [intToChars, if_neg h]
    rcases hl : natToDigits n.toNat with _ | ⟨c, rest⟩
    · exact absurd hl (natToDigits_ne_nil n.toNat)
    · have hdig : isDig c = true := by
        apply natToDigits_all_dig n.toNat
        rw [hl]
        simp
      have hne : (c == '-') = false := by
        have := (isDig_ne c hdig).2.2.2.2.2.1
        simp [this]
      rw [parseIntChars, hne]
      simp only [Bool.false_eq_true, if_false]
      rw [← hl, parseNatChars_natToDigits]
      simp only [Option.map_some', Option.some.injEq, Int.ofNat_eq_natCast]
      omega

/-- The last element of a list ending in a singleton. -/
theorem getLast?_app_singleton (l : List Char) (a : Char) :
    (l ++ [a]).getLast? = some a := by
  induction l with
  | nil => rfl
  | cons c l ih =>
    rw [List.cons_append, List.getLast?_cons, ih]
    cases l <;> simp

/-- Dropping the last element of a list ending in a singleton. -/
theorem dropLast_app_singleton (l : List Char) (a : Char) :
    (l ++ [a]).dropLast = l := by
  simp


/-! Delimiter sets are contained in the matching escape sets. -/

/-- The name/value separator is escaped in names and symbol values. -/
theorem eqDelim_sub_name : ∀ c, eqDelim c = true → nameSpecial c = true := by
  intro c h
  have hc : c = '=' := by simpa [eqDelim] using h
  subst hc
  decide

/-- Value delimiters are escaped in names and symbol values. -/
theorem valDelim_sub_name : ∀ c, valDelim c = true → nameSpecial c = true := by
  intro c h
  have hc : c = ',' ∨ c = ' ' := by simpa [valDelim] using h
  rcases hc with rfl | rfl <;> decide

/-- Table delimiters are escaped in table names. -/
theorem tableDelim_sub_table : ∀ c, tableDelim c = true → tableSpecial c = true := by
  intro c h
  have hc : c = ',' ∨ c = ' ' := by simpa [tableDelim] using h
  rcases hc with rfl | rfl <;> decide

/-- The closing quote is escaped in string field values. -/
theorem quoteDelim_sub_str : ∀ c, quoteDelim c = true → strSpecial c = true := by
  intro c h
  have hc : c = '"' := by simpa [quoteDelim] using h
  subst hc
  decide

/-- A digit character is not a value delimiter and not a backslash. -/
theorem clean_of_isDig (c : Char) (h : isDig c = true) :
    valDelim c = false ∧ c ≠ '\\' := by
  have h1 := (isDig_ne c h).1
  have h2 := (isDig_ne c h).2.1
  refine ⟨?_, (isDig_ne c h).2.2.1⟩
  simp [valDelim, h1, h2]

/-- No character of an integer token is a value delimiter or backslash. -/
theorem intTok_clean (n : Int) :
    ∀ c ∈ intToChars n ++ ['i'], valDelim c = false ∧ c ≠ '\\' := by
  intro c hc
  rcases List.mem_append.mp hc with hc | hc
  · rcases intToChars_chars n c hc with rfl | hd
    · exact ⟨by decide, by decide⟩
    · exact clean_of_isDig c hd
  · have hc2 : c = 'i' := by simpa using hc
    subst hc2
    exact ⟨by decide, by decide⟩

/-- Classifying an integer token recovers the integer. -/
theorem classifyToken_int (n : Int) :
    classifyToken (intToChars n ++ ['i']) = some (FValue.fint n) := by
  have hlast : (intToChars n ++ ['i']).getLast? = some 'i' :=
    getLast?_app_singleton _ _
  have hnt : ¬(intToChars n ++ ['i'] = ['t']) := by
    intro h
    have h2 := congrArg List.getLast? h
    rw [hlast] at h2
    simp at h2
  have hnf : ¬(intToChars n ++ ['i'] = ['f']) := by
    intro h
    have h2 := congrArg List.getLast? h
    rw [hlast] at h2
    simp at h2
  rw [classifyToken, if_neg hnt, if_neg hnf, if_pos hlast,
    dropLast_app_singleton, parseIntChars_intToChars]
  rfl

/-- A rendered integer is never empty. -/
theorem intToChars_ne_nil (n : Int) : intToChars n ≠ [] := by
  rw [intToChars]
  by_cases h : n < 0
  · simp [h]
  · simp [h, natToDigits_ne_nil]

/-- A digit character is not a letter suffix or a decimal point. -/
theorem isDig_ne2 (c : Char) (h : isDig c = true) :
    c ≠ 'i' ∧ c ≠ 't' ∧ c ≠ 'f' ∧ c ≠ '.' ∧ c ≠ 'n' := by
  refine ⟨?_, ?_, ?_, ?_, ?_⟩ <;>
    · intro he
      subst he
      exact absurd h (by decide)

/-- Padded rendering has exactly the requested width. -/
theorem natToDigitsPad_length (s : Nat) : ∀ n, (natToDigitsPad s n).length = s := by
  induction s with
  | zero => intro n; rfl
  | succ s ih =>
    intro n
    rw [natToDigitsPad]
    simp [ih]

/-- Every character of a padded rendering is a digit. -/
theorem natToDigitsPad_all_dig (s : Nat) :
    ∀ n, ∀ c ∈ natToDigitsPad s n, isDig c = true := by
  induction s with
  | zero =>
    intro n c hc
    simp [natToDigitsPad] at hc
  | succ s ih =>
    intro n c hc
    rw [natToDigitsPad] at hc
    rcases List.mem_append.mp hc with hc | hc
    · exact ih (n / 10) c hc
    · have hce : c = digitChar (n % 10) := by simpa using hc
      subst hce
      exact isDig_digitChar _ (Nat.mod_lt n (by omega))

/-- Decoding a padded rendering recovers the number. -/
theorem digitsVal_natToDigitsPad (s : Nat) :
    ∀ n, n < 10 ^ s → digitsVal (natToDigitsPad s n) = n := by
  induction s with
  | zero =>
    intro n h
    have hz : n = 0 := by simpa using h
    subst hz
    rfl
  | succ s ih =>
    intro n h
    have hlt : n / 10 < 10 ^ s := by
      have h2 : 10 ^ (s + 1) = 10 ^ s * 10 := pow_succ 10 s
      rw [h2] at h
      omega
    rw [natToDigitsPad, digitsVal_concat, ih (n / 10) hlt,
      digitVal_digitChar _ (Nat.mod_lt n (by omega))]
    omega

/-- Splitting at the decimal point undoes placing one after a dot-free
integer part. -/
theorem splitAtDot_eq (A B : List Char) (hA : ∀ c ∈ A, c ≠ '.') :
    splitAtDot (A ++ '.' :: B) = some (A, B) := by
  induction A with
  | nil => simp [splitAtDot]
  | cons a A ih =>
    have ha := hA a (by simp)
    rw [List.cons_append, splitAtDot]
    simp [ha, ih (fun c hc => hA c (by simp [hc]))]

/-- Parsing the unsigned decimal rendering of `a` at scale `s` recovers
`a` and `s`. -/
theorem parseUFloat_eq (a s : Nat) :
    parseUFloat (natToDigits (a / 10 ^ s) ++ '.' ::
      natToDigitsPad s (a % 10 ^ s)) = some (a, s) := by
  have hdot : ∀ c ∈ natToDigits (a / 10 ^ s), c ≠ '.' :=
    fun c hc => (isDig_ne2 c (natToDigits_all_dig _ c hc)).2.2.2.1
  rw [parseUFloat, splitAtDot_eq _ _ hdot]
  dsimp only
  rw [if_pos ⟨natToDigits_ne_nil _, natToDigits_all_dig _,
    natToDigitsPad_all_dig s _⟩]
  have hmod : a % 10 ^ s < 10 ^ s := Nat.mod_lt a (by positivity)
  rw [digitsVal_natToDigits, natToDigitsPad_length,
    digitsVal_natToDigitsPad s _ hmod]
  have hdm : a / 10 ^ s * 10 ^ s + a % 10 ^ s = a := by
    have h1 := Nat.div_add_mod a (10 ^ s)
    rw [Nat.mul_comm] at h1
    exact h1
  rw [hdm]

/-- One-step evaluation of the float parser on a nonempty token. -/
theorem parseFloatChars_cons (c : Char) (rest : List Char) :
    parseFloatChars (c :: rest) =
      (if c == '-' then
        (parseUFloat rest).map (fun p => (-(Int.ofNat p.1), p.2))
      else (parseUFloat (c :: rest)).map (fun p => (Int.ofNat p.1, p.2))) := rfl

/-- Parsing the rendering of a decimal float recovers its scaled integer
and scale exactly. -/
theorem parseFloatChars_floatChars (m : Int) (s : Nat) :
    parseFloatChars (floatChars m s) = some (m, s) := by
  rw [floatChars]
  by_cases h : m < 0
  · rw [if_pos h, List.singleton_append, List.cons_append, parseFloatChars_cons]
    rw [if_pos (show (('-' == '-') = true) from by decide)]
    rw [parseUFloat_eq]
    simp only [Option.map_some', Option.some.injEq, Int.ofNat_eq_natCast,
      Prod.mk.injEq]
    exact ⟨by omega, trivial⟩
  · rw [if_neg h, List.nil_append]
    rcases hl : natToDigits (m.natAbs / 10 ^ s) with _ | ⟨c, cs⟩
    · exact absurd hl (natToDigits_ne_nil _)
    · have hdig : isDig c = true := by
        apply natToDigits_all_dig
        rw [hl]
        simp
      have hne : (c == '-') = false := by
        have := (isDig_ne c hdig).2.2.2.2.2.1
        simp [this]
      rw [List.cons_append, parseFloatChars_cons]
      rw [if_neg (show ¬((c == '-') = true) from by simp [hne])]
      rw [← List.cons_append, ← hl, parseUFloat_eq]
      simp only [Option.map_some', Option.some.injEq, Int.ofNat_eq_natCast,
        Prod.mk.injEq]
      exact ⟨by omega, trivial⟩

/-- Every character of a rendered float is a minus sign, a decimal point
or a digit. -/
theorem floatChars_chars (m : Int) (s : Nat) :
    ∀ c ∈ floatChars m s, c = '-' ∨ c = '.' ∨ isDig c = true := by
  intro c hc
  rw [floatChars] at hc
  rcases List.mem_append.mp hc with hc | hc
  · rcases List.mem_append.mp hc with hc | hc
    · by_cases h : m < 0
      · rw [if_pos h] at hc
        have hce : c = '-' := by simpa using hc
        exact Or.inl hce
      · rw [if_neg h] at hc
        simp at hc
    · exact Or.inr (Or.inr (natToDigits_all_dig _ c hc))
  · rcases List.mem_cons.mp hc with rfl | hc
    · exact Or.inr (Or.inl rfl)
    · exact Or.inr (Or.inr (natToDigitsPad_all_dig s _ c hc))

/-- A rendered float is never empty. -/
theorem floatChars_ne_nil (m : Int) (s : Nat) : floatChars m s ≠ [] := by
  rw [floatChars]
  simp

/-- The last character of a rendered float is a decimal point or a
digit. -/
theorem floatChars_getLast (m : Int) (s : Nat) :
    ∃ x, (floatChars m s).getLast? = some x ∧ (x = '.' ∨ isDig x = true) := by
  cases s with
  | zero =>
    refine ⟨'.', ?_, Or.inl rfl⟩
    rw [floatChars]
    rw [show
      (if m < 0 then ['-'] else []) ++ natToDigits (m.natAbs / 10 ^ 0) ++
        '.' :: natToDigitsPad 0 (m.natAbs % 10 ^ 0) =
      ((if m < 0 then ['-'] else []) ++ natToDigits (m.natAbs / 10 ^ 0)) ++
        ['.'] by simp [natToDigitsPad]]
    exact getLast?_app_singleton _ _
  | succ s2 =>
    refine ⟨digitChar (m.natAbs % 10 ^ (s2 + 1) / 10 ^ 0 % 10), ?_, ?_⟩
    · rw [floatChars, natToDigitsPad]
      rw [show
        (if m < 0 then ['-'] else []) ++ natToDigits (m.natAbs / 10 ^ (s2 + 1)) ++
          '.' :: (natToDigitsPad s2 (m.natAbs % 10 ^ (s2 + 1) / 10) ++
            [digitChar (m.natAbs % 10 ^ (s2 + 1) % 10)]) =
        ((if m < 0 then ['-'] else []) ++ natToDigits (m.natAbs / 10 ^ (s2 + 1)) ++
          '.' :: natToDigitsPad s2 (m.natAbs % 10 ^ (s2 + 1) / 10)) ++
          [digitChar (m.natAbs % 10 ^ (s2 + 1) % 10)] by simp]
      rw [getLast?_app_singleton]
      simp
    · exact Or.inr (isDig_digitChar _ (Nat.mod_lt _ (by omega)))

/-- Classifying a rendered float token recovers the float. -/
theorem classifyToken_float (m : Int) (s : Nat) :
    classifyToken (floatChars m s) = some (FValue.ffloat m s) := by
  have hdot : '.' ∈ floatChars m s := by
    rw [floatChars]
    simp
  have hnt : ¬(floatChars m s = ['t']) := by
    intro hx
    rw [hx] at hdot
    simp at hdot
  have hnf : ¬(floatChars m s = ['f']) := by
    intro hx
    rw [hx] at hdot
    simp at hdot
  obtain ⟨x, hx, hxd⟩ := floatChars_getLast m s
  have hni : ¬((floatChars m s).getLast? = some 'i') := by
    intro hcontra
    rw [hx] at hcontra
    have hxe : x = 'i' := by simpa using hcontra
    subst hxe
    rcases hxd with h1 | h1
    · exact absurd h1 (by decide)
    · exact absurd h1 (by decide)
  have hnts : ¬((floatChars m s).getLast? = some 't') := by
    intro hcontra
    rw [hx] at hcontra
    have hxe : x = 't' := by simpa using hcontra
    subst hxe
    rcases hxd with h1 | h1
    · exact absurd h1 (by decide)
    · exact absurd h1 (by decide)
  rw [classifyToken, if_neg hnt, if_neg hnf, if_neg hni, if_neg hnts,
    parseFloatChars_floatChars]
  rfl

/-- Classifying a rendered timestamp token recovers the timestamp. -/
theorem classifyToken_ts (k : Int) :
    classifyToken (intToChars k ++ ['t']) = some (FValue.ftimestamp k) := by
  have hlast : (intToChars k ++ ['t']).getLast? = some 't' :=
    getLast?_app_singleton _ _
  have hlen : (intToChars k ++ ['t']).length ≠ 1 := by
    rcases hl : intToChars k with _ | ⟨c, cs⟩
    · exact absurd hl (intToChars_ne_nil k)
    · simp
  have hnt : ¬(intToChars k ++ ['t'] = ['t']) := by
    intro hx
    exact hlen (by rw [hx]; rfl)
  have hnf : ¬(intToChars k ++ ['t'] = ['f']) := by
    intro hx
    exact hlen (by rw [hx]; rfl)
  have hni : ¬((intToChars k ++ ['t']).getLast? = some 'i') := by
    rw [hlast]
    simp
  rw [classifyToken, if_neg hnt, if_neg hnf, if_neg hni, if_pos hlast,
    dropLast_app_singleton, parseIntChars_intToChars]
  rfl

/-- No character of a timestamp token is a value delimiter or
backslash. -/
theorem tsTok_clean (k : Int) :
    ∀ c ∈ intToChars k ++ ['t'], valDelim c = false ∧ c ≠ '\\' := by
  intro c hc
  rcases List.mem_append.mp hc with hc | hc
  · rcases intToChars_chars k c hc with rfl | hd
    · exact ⟨by decide, by decide⟩
    · exact clean_of_isDig c hd
  · have hc2 : c = 't' := by simpa using hc
    subst hc2
    exact ⟨by decide, by decide⟩

/-- No character of a float token is a value delimiter or backslash. -/
theorem floatTok_clean (m : Int) (s : Nat) :
    ∀ c ∈ floatChars m s, valDelim c = false ∧ c ≠ '\\' := by
  intro c hc
  rcases floatChars_chars m s c hc with rfl | rfl | hd
  · exact ⟨by decide, by decide⟩
  · exact ⟨by decide, by decide⟩
  · exact clean_of_isDig c hd

/-- A list whose characters are never a double quote does not start with
one. -/
theorem head_not_quote (l : List Char) (hl : ∀ c ∈ l, c ≠ '"') :
    ∀ c tl, l = c :: tl → (c == '"') = false := by
  intro c tl hx
  have hc : c ∈ l := by
    rw [hx]
    simp
  have := hl c hc
  simp [this]

/-- No character of an integer token is a double quote. -/
theorem intTok_ne_quote (n : Int) : ∀ c ∈ intToChars n ++ ['i'], c ≠ '"' := by
  intro c hc
  rcases List.mem_append.mp hc with hc | hc
  · rcases intToChars_chars n c hc with rfl | hd
    · decide
    · exact (isDig_ne c hd).2.2.2.1
  · have hc2 : c = 'i' := by simpa using hc
    subst hc2
    decide

/-- No character of a timestamp token is a double quote. -/
theorem tsTok_ne_quote (k : Int) : ∀ c ∈ intToChars k ++ ['t'], c ≠ '"' := by
  intro c hc
  rcases List.mem_append.mp hc with hc | hc
  · rcases intToChars_chars k c hc with rfl | hd
    · decide
    · exact (isDig_ne c hd).2.2.2.1
  · have hc2 : c = 't' := by simpa using hc
    subst hc2
    decide

/-- No character of a float token is a double quote. -/
theorem floatTok_ne_quote (m : Int) (s : Nat) :
    ∀ c ∈ floatChars m s, c ≠ '"' := by
  intro c hc
  rcases floatChars_chars m s c hc with rfl | rfl | hd
  · decide
  · decide
  · exact (isDig_ne c hd).2.2.2.1

/-- Parsing an unquoted token followed by stopping input yields its
classification and leaves that input. -/
theorem parseFieldValue_unquoted (tok rest : List Char) (v : FValue)
    (hne : tok ≠ [])
    (hq : ∀ c tl, tok = c :: tl → (c == '"') = false)
    (hclean : ∀ c ∈ tok, valDelim c = false ∧ c ≠ '\\')
    (hstop : stopsAt valDelim rest)
    (hcls : classifyToken tok = some v) :
    parseFieldValue (tok ++ rest) = some (v, rest) := by
  rcases htok : tok with _ | ⟨c, tl⟩
  · exact absurd htok hne
  · subst htok
    have hqc := hq c tl rfl
    have hscan : scanUntil valDelim ((c :: tl) ++ rest) = (c :: tl, rest) :=
      scanUntil_clean valDelim (by decide) _ hclean rest hstop
    rw [List.cons_append, parseFieldValue, hqc]
    simp only [Bool.false_eq_true, if_false]
    rw [← List.cons_append]
    rw [hscan, hcls]

/-- Parsing the wire form of any field value followed by stopping input
recovers the value and leaves that input. -/
theorem parseFieldValue_fvalue (v : FValue) (rest : List Char)
    (h : stopsAt valDelim rest) :
    parseFieldValue (fvalueChars v ++ rest) = some (v, rest) := by
  cases v with
  | fbool b =>
    cases b with
    | true =>
      apply parseFieldValue_unquoted ['t'] rest _ (by simp)
        (head_not_quote _ (by decide)) (by decide) h
      decide
    | false =>
      apply parseFieldValue_unquoted ['f'] rest _ (by simp)
        (head_not_quote _ (by decide)) (by decide) h
      decide
  | fint n =>
    apply parseFieldValue_unquoted _ rest _ (by simp)
      (head_not_quote _ (intTok_ne_quote n)) (intTok_clean n) h
    exact classifyToken_int n
  | ffloat m s =>
    apply parseFieldValue_unquoted _ rest _ (floatChars_ne_nil m s)
      (head_not_quote _ (floatTok_ne_quote m s)) (floatTok_clean m s) h
    exact classifyToken_float m s
  | fstr s =>
    have hshape : fvalueChars (FValue.fstr s) ++ rest =
        '"' :: (escapeWith strSpecial s ++ ('"' :: rest)) := by
      show ('"' :: (escapeWith strSpecial s ++ ['"'])) ++ rest =
        '"' :: (escapeWith strSpecial s ++ ('"' :: rest))
      simp
    have hscan : scanUntil quoteDelim (escapeWith strSpecial s ++ ('"' :: rest)) =
        (s, '"' :: rest) := by
      apply scanUntil_escapeWith strSpecial quoteDelim quoteDelim_sub_str
        (by decide) (by decide)
      exact Or.inr ⟨'"', rest, rfl, by decide⟩
    rw [hshape, parseFieldValue]
    simp only [hscan]
    simp
  | ftimestamp k =>
    apply parseFieldValue_unquoted _ rest _ (by simp)
      (head_not_quote _ (tsTok_ne_quote k)) (tsTok_clean k) h
    exact classifyToken_ts k


/-- The input after a section: empty, or a space followed by more. -/
def spaceOrNil (l : List Char) : Prop := l = [] ∨ ∃ t, l = ' ' :: t

/-- Space-or-empty input stops a value scan. -/
theorem stopsAt_of_spaceOrNil (rest : List Char) (h : spaceOrNil rest) :
    stopsAt valDelim rest := by
  rcases h with rfl | ⟨t, rfl⟩
  · exact Or.inl rfl
  · exact Or.inr ⟨' ', t, rfl, by decide⟩

/-- A serialized symbol section followed by space-or-empty input stops a
value scan. -/
theorem stops_symbols (syms : List (List Char × List Char)) (rest : List Char)
    (h : spaceOrNil rest) : stopsAt valDelim (symbolsChars syms ++ rest) := by
  cases syms with
  | nil =>
    rw [symbolsChars, List.nil_append]
    exact stopsAt_of_spaceOrNil rest h
  | cons s ss =>
    right
    refine ⟨',', escapeWith nameSpecial s.1 ++ '=' :: escapeWith nameSpecial s.2 ++
      (symbolsChars ss ++ rest), ?_, by decide⟩
    simp [symbolsChars, symbolChars]

/-- A serialized fields-after-first section followed by space-or-empty
input stops a value scan. -/
theorem stops_fieldsRest (fs : List (List Char × FValue)) (rest : List Char)
    (h : spaceOrNil rest) : stopsAt valDelim (fieldsRestChars fs ++ rest) := by
  cases fs with
  | nil =>
    rw [fieldsRestChars, List.nil_append]
    exact stopsAt_of_spaceOrNil rest h
  | cons f fs =>
    right
    refine ⟨',', fieldChars f ++ fieldsRestChars fs ++ rest, ?_, by decide⟩
    simp [fieldsRestChars]

/-- Each serialized symbol contributes at least one character. -/
theorem symbolsChars_length_le (syms : List (List Char × List Char)) :
    syms.length ≤ (symbolsChars syms).length := by
  induction syms with
  | nil => simp [symbolsChars]
  | cons s ss ih =>
    rw [symbolsChars, List.length_append, symbolChars]
    simp only [List.length_cons]
    omega

/-- Each serialized further field contributes at least one character. -/
theorem fieldsRestChars_length_le (fs : List (List Char × FValue)) :
    fs.length ≤ (fieldsRestChars fs).length := by
  induction fs with
  | nil => simp [fieldsRestChars]
  | cons f fs ih =>
    rw [fieldsRestChars]
    simp only [List.length_cons, List.length_append]
    omega

/-- Parsing a serialized symbol section recovers the symbols and leaves
the space-or-empty input that follows, for any sufficient fuel. -/
theorem parseSymbols_rt (syms : List (List Char × List Char)) (rest : List Char)
    (h : spaceOrNil rest) :
    ∀ fuel, syms.length ≤ fuel →
      parseSymbols fuel (symbolsChars syms ++ rest) = some (syms, rest) := by
  induction syms with
  | nil =>
    intro fuel hfuel
    rw [symbolsChars, List.nil_append]
    rcases h with rfl | ⟨t, rfl⟩
    · rw [parseSymbols.eq_def]
    · rw [parseSymbols.eq_def]
      simp
  | cons sym ss ih =>
    intro fuel hfuel
    obtain ⟨n, v⟩ := sym
    rcases fuel with _ | fuel2
    · simp at hfuel
    · have hshape : symbolsChars ((n, v) :: ss) ++ rest =
          ',' :: (escapeWith nameSpecial n ++
            ('=' :: (escapeWith nameSpecial v ++ (symbolsChars ss ++ rest)))) := by
        simp [symbolsChars, symbolChars]
      have hscan1 : scanUntil eqDelim (escapeWith nameSpecial n ++
          ('=' :: (escapeWith nameSpecial v ++ (symbolsChars ss ++ rest)))) =
          (n, '=' :: (escapeWith nameSpecial v ++ (symbolsChars ss ++ rest))) :=
        scanUntil_escapeWith nameSpecial eqDelim eqDelim_sub_name (by decide) (by decide) _ _
          (Or.inr ⟨'=', _, rfl, by decide⟩)
      have hscan2 : scanUntil valDelim
          (escapeWith nameSpecial v ++ (symbolsChars ss ++ rest)) =
          (v, symbolsChars ss ++ rest) :=
        scanUntil_escapeWith nameSpecial valDelim valDelim_sub_name (by decide) (by decide) _ _
          (stops_symbols ss rest h)
      have hih : parseSymbols fuel2 (symbolsChars ss ++ rest) = some (ss, rest) :=
        ih fuel2 (by simp at hfuel; omega)
      rw [hshape, parseSymbols.eq_def]
      simp only [hscan1, hscan2, hih]
      simp

/-- Parsing a serialized fields-after-first section recovers the fields
and leaves the space-or-empty input that follows, for any sufficient
fuel. -/
theorem parseFieldsRest_rt (fs : List (List Char × FValue)) (rest : List Char)
    (h : spaceOrNil rest) :
    ∀ fuel, fs.length ≤ fuel →
      parseFieldsRest fuel (fieldsRestChars fs ++ rest) = some (fs, rest) := by
  induction fs with
  | nil =>
    intro fuel hfuel
    rw [fieldsRestChars, List.nil_append]
    rcases h with rfl | ⟨t, rfl⟩
    · rw [parseFieldsRest.eq_def]
    · rw [parseFieldsRest.eq_def]
      simp
  | cons f fs ih =>
    intro fuel hfuel
    obtain ⟨n, v⟩ := f
    rcases fuel with _ | fuel2
    · simp at hfuel
    · have hshape : fieldsRestChars ((n, v) :: fs) ++ rest =
          ',' :: (escapeWith nameSpecial n ++
            ('=' :: (fvalueChars v ++ (fieldsRestChars fs ++ rest)))) := by
        simp [fieldsRestChars, fieldChars]
      have hscan1 : scanUntil eqDelim (escapeWith nameSpecial n ++
          ('=' :: (fvalueChars v ++ (fieldsRestChars fs ++ rest)))) =
          (n, '=' :: (fvalueChars v ++ (fieldsRestChars fs ++ rest))) :=
        scanUntil_escapeWith nameSpecial eqDelim eqDelim_sub_name (by decide) (by decide) _ _
          (Or.inr ⟨'=', _, rfl, by decide⟩)
      have hval : parseFieldValue (fvalueChars v ++ (fieldsRestChars fs ++ rest)) =
          some (v, fieldsRestChars fs ++ rest) :=
        parseFieldValue_fvalue v _ (stops_fieldsRest fs rest h)
      have hih : parseFieldsRest fuel2 (fieldsRestChars fs ++ rest) =
          some (fs, rest) :=
        ih fuel2 (by simp at hfuel; omega)
      rw [hshape, parseFieldsRest.eq_def]
      simp only [hscan1, hval, hih]
      simp

/-- Parsing a serialized field section recovers the fields and leaves the
space-or-empty input that follows, for any sufficient fuel. -/
theorem parseFields_rt (f : List Char × FValue) (fs : List (List Char × FValue))
    (rest : List Char) (h : spaceOrNil rest) (fuel : Nat)
    (hfuel : fs.length ≤ fuel) :
    parseFields fuel (fieldChars f ++ (fieldsRestChars fs ++ rest)) =
      some (f :: fs, rest) := by
  obtain ⟨n, v⟩ := f
  have hshape : fieldChars (n, v) ++ (fieldsRestChars fs ++ rest) =
      escapeWith nameSpecial n ++
        ('=' :: (fvalueChars v ++ (fieldsRestChars fs ++ rest))) := by
    simp [fieldChars]
  have hscan1 : scanUntil eqDelim (escapeWith nameSpecial n ++
      ('=' :: (fvalueChars v ++ (fieldsRestChars fs ++ rest)))) =
      (n, '=' :: (fvalueChars v ++ (fieldsRestChars fs ++ rest))) :=
    scanUntil_escapeWith nameSpecial eqDelim eqDelim_sub_name (by decide) (by decide) _ _
      (Or.inr ⟨'=', _, rfl, by decide⟩)
  have hval : parseFieldValue (fvalueChars v ++ (fieldsRestChars fs ++ rest)) =
      some (v, fieldsRestChars fs ++ rest) :=
    parseFieldValue_fvalue v _ (stops_fieldsRest fs rest h)
  have hrest : parseFieldsRest fuel (fieldsRestChars fs ++ rest) = some (fs, rest) :=
    parseFieldsRest_rt fs rest h fuel hfuel
  rw [hshape, parseFields]
  simp only [hscan1, hval, hrest]
  simp

/-- The timestamp block always comes after a space or is absent. -/
theorem spaceOrNil_tsBlock (ts : Option Int) : spaceOrNil (tsBlock ts) := by
  cases ts with
  | none => exact Or.inl rfl
  | some t => exact Or.inr ⟨intToChars t, rfl⟩

/-- Parsing a serialized timestamp block recovers the timestamp. -/
theorem parseTs_tsBlock (ts : Option Int) : parseTs (tsBlock ts) = some ts := by
  cases ts with
  | none => rfl
  | some t =>
    rw [tsBlock, parseTs]
    simp [parseIntChars_intToChars]

/-- The symbol section followed by a space stops a table scan. -/
theorem stops_table (syms : List (List Char × List Char)) (x : List Char) :
    stopsAt tableDelim (symbolsChars syms ++ ' ' :: x) := by
  cases syms with
  | nil => exact Or.inr ⟨' ', x, by simp [symbolsChars], by decide⟩
  | cons s ss =>
    right
    refine ⟨',', escapeWith nameSpecial s.1 ++ '=' :: escapeWith nameSpecial s.2 ++
      (symbolsChars ss ++ ' ' :: x), ?_, by decide⟩
    simp [symbolsChars, symbolChars]

/-- Round-trip: parsing the serialized wire form of a row with at least
one field recovers the row exactly. -/
theorem parseRow_serializeRow (r : Row) (hf : r.fields ≠ []) :
    parseRow (serializeRow r) = some r := by
  obtain ⟨table, syms, fields, ts⟩ := r
  cases fields with
  | nil => exact absurd rfl hf
  | cons f fs =>
    rw [serializeRow, parseRow]
    rw [if_pos (getLast?_app_singleton _ _), dropLast_app_singleton]
    have hbody : serializeBody (Row.mk table syms (f :: fs) ts) =
        escapeWith tableSpecial table ++ (symbolsChars syms ++
          ' ' :: (fieldChars f ++ (fieldsRestChars fs ++ tsBlock ts))) := by
      rw [serializeBody]
      simp [fieldsBlock]
    rw [hbody]
    have hfuel1 : syms.length ≤
        ((escapeWith tableSpecial table ++ (symbolsChars syms ++
          ' ' :: (fieldChars f ++ (fieldsRestChars fs ++ tsBlock ts)))) ++
          ['\n']).length := by
      have := symbolsChars_length_le syms
      simp only [List.length_append, List.length_cons]
      omega
    have hfuel2 : fs.length ≤
        ((escapeWith tableSpecial table ++ (symbolsChars syms ++
          ' ' :: (fieldChars f ++ (fieldsRestChars fs ++ tsBlock ts)))) ++
          ['\n']).length := by
      have := fieldsRestChars_length_le fs
      simp only [List.length_append, List.length_cons]
      omega
    have hscan1 : scanUntil tableDelim (escapeWith tableSpecial table ++
        (symbolsChars syms ++
          ' ' :: (fieldChars f ++ (fieldsRestChars fs ++ tsBlock ts)))) =
        (table, symbolsChars syms ++
          ' ' :: (fieldChars f ++ (fieldsRestChars fs ++ tsBlock ts))) :=
      scanUntil_escapeWith tableSpecial tableDelim tableDelim_sub_table
        (by decide) (by decide) _ _ (stops_table syms _)
    have hsyms : parseSymbols ((escapeWith tableSpecial table ++
        (symbolsChars syms ++
          ' ' :: (fieldChars f ++ (fieldsRestChars fs ++ tsBlock ts)))) ++
          ['\n']).length
        (symbolsChars syms ++
          ' ' :: (fieldChars f ++ (fieldsRestChars fs ++ tsBlock ts))) =
        some (syms, ' ' :: (fieldChars f ++ (fieldsRestChars fs ++ tsBlock ts))) :=
      parseSymbols_rt syms _ (Or.inr ⟨_, rfl⟩) _ hfuel1
    have hflds : parseFields ((escapeWith tableSpecial table ++
        (symbolsChars syms ++
          ' ' :: (fieldChars f ++ (fieldsRestChars fs ++ tsBlock ts)))) ++
          ['\n']).length
        (fieldChars f ++ (fieldsRestChars fs ++ tsBlock ts)) =
        some (f :: fs, tsBlock ts) :=
      parseFields_rt f fs (tsBlock ts) (spaceOrNil_tsBlock ts) _ hfuel2
    simp only [hscan1, hsyms, hflds, parseTs_tsBlock]
    simp


/-- The escaper never emits a literal newline: a newline in the content
becomes the two characters backslash-`n`. -/
theorem escapeWith_no_newline (sp : Char → Bool) (s : List Char) :
    ∀ c ∈ escapeWith sp s, c ≠ '\n' := by
  induction s with
  | nil =>
    intro c hc
    simp [escapeWith] at hc
  | cons a s ih =>
    intro c hc
    rw [escapeWith] at hc
    rcases List.mem_append.mp hc with hc | hc
    · by_cases h1 : (a == '\n') = true
      · rw [if_pos h1] at hc
        rcases List.mem_cons.mp hc with rfl | hc
        · decide
        · have hc2 : c = 'n' := by simpa using hc
          subst hc2
          decide
      · have h1b : (a == '\n') = false := by
          cases hx : (a == '\n')
          · rfl
          · exact absurd hx h1
        have hanl : a ≠ '\n' := by simpa using h1b
        simp only [h1b, Bool.false_eq_true, if_false] at hc
        by_cases h2 : (a == '\\' || sp a) = true
        · rw [if_pos h2] at hc
          rcases List.mem_cons.mp hc with rfl | hc
          · decide
          · have hc2 : c = a := by simpa using hc
            subst hc2
            exact hanl
        · have h2b : (a == '\\' || sp a) = false := by
            cases hx : (a == '\\' || sp a)
            · rfl
            · exact absurd hx h2
          simp only [h2b, Bool.false_eq_true, if_false] at hc
          have hc2 : c = a := by simpa using hc
          subst hc2
          exact hanl
    · exact ih c hc

/-- No wire form of a field value contains a literal newline. -/
theorem fvalueChars_no_newline (v : FValue) : ∀ c ∈ fvalueChars v, c ≠ '\n' := by
  cases v with
  | fbool b =>
    cases b with
    | true =>
      intro c hc
      have hc2 : c = 't' := by simpa [fvalueChars] using hc
      subst hc2
      decide
    | false =>
      intro c hc
      have hc2 : c = 'f' := by simpa [fvalueChars] using hc
      subst hc2
      decide
  | fint n =>
    intro c hc
    simp only [fvalueChars] at hc
    rcases List.mem_append.mp hc with hc | hc
    · rcases intToChars_chars n c hc with rfl | hd
      · decide
      · exact (isDig_ne c hd).2.2.2.2.2.2
    · have hc2 : c = 'i' := by simpa using hc
      subst hc2
      decide
  | ffloat m s =>
    intro c hc
    simp only [fvalueChars] at hc
    rcases floatChars_chars m s c hc with rfl | rfl | hd
    · decide
    · decide
    · exact (isDig_ne c hd).2.2.2.2.2.2
  | fstr s =>
    intro c hc
    simp only [fvalueChars] at hc
    rcases List.mem_cons.mp hc with rfl | hc
    · decide
    · rcases List.mem_append.mp hc with hc | hc
      · exact escapeWith_no_newline strSpecial s c hc
      · have hc2 : c = '"' := by simpa using hc
        subst hc2
        decide
  | ftimestamp k =>
    intro c hc
    simp only [fvalueChars] at hc
    rcases List.mem_append.mp hc with hc | hc
    · rcases intToChars_chars k c hc with rfl | hd
      · decide
      · exact (isDig_ne c hd).2.2.2.2.2.2
    · have hc2 : c = 't' := by simpa using hc
      subst hc2
      decide

/-- The serialized symbol section contains no literal newline. -/
theorem symbolsChars_no_newline (syms : List (List Char × List Char)) :
    ∀ c ∈ symbolsChars syms, c ≠ '\n' := by
  induction syms with
  | nil =>
    intro c hc
    simp [symbolsChars] at hc
  | cons s ss ih =>
    intro c hc
    rw [symbolsChars] at hc
    rcases List.mem_append.mp hc with hc | hc
    · rw [symbolChars] at hc
      rcases List.mem_cons.mp hc with rfl | hc
      · decide
      · rcases List.mem_append.mp hc with hc | hc
        · exact escapeWith_no_newline _ _ c hc
        · rcases List.mem_cons.mp hc with rfl | hc
          · decide
          · exact escapeWith_no_newline _ _ c hc
    · exact ih c hc

/-- A serialized field contains no literal newline. -/
theorem fieldChars_no_newline (f : List Char × FValue) :
    ∀ c ∈ fieldChars f, c ≠ '\n' := by
  intro c hc
  rw [fieldChars] at hc
  rcases List.mem_append.mp hc with hc | hc
  · exact escapeWith_no_newline _ _ c hc
  · rcases List.mem_cons.mp hc with rfl | hc
    · decide
    · exact fvalueChars_no_newline _ c hc

/-- The serialized fields after the first contain no literal newline. -/
theorem fieldsRestChars_no_newline (fs : List (List Char × FValue)) :
    ∀ c ∈ fieldsRestChars fs, c ≠ '\n' := by
  induction fs with
  | nil =>
    intro c hc
    simp [fieldsRestChars] at hc
  | cons f fs ih =>
    intro c hc
    rw [fieldsRestChars] at hc
    rcases List.mem_cons.mp hc with rfl | hc
    · decide
    · rcases List.mem_append.mp hc with hc | hc
      · exact fieldChars_no_newline f c hc
      · exact ih c hc

/-- The serialized field section contains no literal newline. -/
theorem fieldsBlock_no_newline (fs : List (List Char × FValue)) :
    ∀ c ∈ fieldsBlock fs, c ≠ '\n' := by
  cases fs with
  | nil =>
    intro c hc
    simp [fieldsBlock] at hc
  | cons f fs =>
    intro c hc
    rw [fieldsBlock] at hc
    rcases List.mem_append.mp hc with hc | hc
    · exact fieldChars_no_newline f c hc
    · exact fieldsRestChars_no_newline fs c hc

/-- The serialized timestamp block contains no literal newline. -/
theorem tsBlock_no_newline (ts : Option Int) : ∀ c ∈ tsBlock ts, c ≠ '\n' := by
  cases ts with
  | none =>
    intro c hc
    simp [tsBlock] at hc
  | some t =>
    intro c hc
    rw [tsBlock] at hc
    rcases List.mem_cons.mp hc with rfl | hc
    · decide
    · rcases intToChars_chars t c hc with rfl | hd
      · decide
      · exact (isDig_ne c hd).2.2.2.2.2.2

/-- Section 4.1's newline discipline: a serialized row is its body
followed by the terminating newline, and the body never contains a
literal newline — the only newline a row emits is its final
terminator. -/
theorem serializeRow_newline_only_terminator (r : Row) :
    serializeRow r = serializeBody r ++ ['\n'] ∧
    ∀ c ∈ serializeBody r, c ≠ '\n' := by
  refine ⟨rfl, ?_⟩
  intro c hc
  rw [serializeBody] at hc
  rcases List.mem_append.mp hc with hc | hc
  · rcases List.mem_append.mp hc with hc | hc
    · exact escapeWith_no_newline _ _ c hc
    · exact symbolsChars_no_newline _ c hc
  · rcases List.mem_cons.mp hc with rfl | hc
    · decide
    · rcases List.mem_append.mp hc with hc | hc
      · exact fieldsBlock_no_newline _ c hc
      · exact tsBlock_no_newline _ c hc

/-- Modelled from the spec: the local row-building and buffer error
taxonomy (section 7). -/
inductive IngressError where
  | invalidName
  | columnOrder
  | duplicateColumn
  | emptyRow
  | timestampAlreadySet
  | range
  | noOpenRow
deriving DecidableEq, Repr

/-- Smallest representable nanosecond timestamp / integer field value. -/
def tsMin : Int := -(2 ^ 63)

/-- Largest representable nanosecond timestamp / integer field value. -/
def tsMax : Int := 2 ^ 63 - 1

/-- Modelled from the spec: the Buffer — committed bytes (always a
sequence of complete serialized rows) and the row currently being built,
if any. -/
structure Buffer where
  committed : List Char
  pending : Option Row
deriving DecidableEq, Repr

/-- All column names already used by the pending row. -/
def colNames (r : Row) : List (List Char) :=
  r.symbols.map Prod.fst ++ r.fields.map Prod.fst

/-- Modelled from the spec: `begin_row(table_name)` — opens a row scope;
fails with `InvalidNameError` on an empty table name. -/
def beginRow (t : List Char) (b : Buffer) : Except IngressError Unit × Buffer :=
  if t = [] then (Except.error IngressError.invalidName, b)
  else (Except.ok (), { b with pending := some (Row.mk t [] [] none) })

/-- Modelled from the spec: `add_symbol(name, value)` — fails with
`InvalidNameError`, `ColumnOrderError` (symbol after a field) or
`DuplicateColumnError`; otherwise appends the symbol column. -/
def addSymbol (n v : List Char) (b : Buffer) : Except IngressError Unit × Buffer :=
  match b.pending with
  | none => (Except.error IngressError.noOpenRow, b)
  | some r =>
    if n = [] then (Except.error IngressError.invalidName, b)
    else if r.fields ≠ [] then (Except.error IngressError.columnOrder, b)
    else if n ∈ colNames r then (Except.error IngressError.duplicateColumn, b)
    else (Except.ok (),
      { b with pending := some { r with symbols := r.symbols ++ [(n, v)] } })

/-- Is this field value inside the protocol's representable range? -/
def fvalueInRange (v : FValue) : Bool :=
  match v with
  | FValue.fint k => decide (tsMin ≤ k ∧ k ≤ tsMax)
  | _ => true

/-- Modelled from the spec: `add_field(name, value)` — fails with
`InvalidNameError`, `DuplicateColumnError` or `RangeError` (integer
outside the protocol range); otherwise appends the field column. -/
def addField (n : List Char) (v : FValue) (b : Buffer) :
    Except IngressError Unit × Buffer :=
  match b.pending with
  | none => (Except.error IngressError.noOpenRow, b)
  | some r =>
    if n = [] then (Except.error IngressError.invalidName, b)
    else if n ∈ colNames r then (Except.error IngressError.duplicateColumn, b)
    else if fvalueInRange v = false then (Except.error IngressError.range, b)
    else (Except.ok (),
      { b with pending := some { r with fields := r.fields ++ [(n, v)] } })

/-- Modelled from the spec: `set_timestamp(nanos)` — at most once per row,
fails with `TimestampAlreadySetError` on a second call and `RangeError`
outside the representable range. -/
def setTimestamp (t : Int) (b : Buffer) : Except IngressError Unit × Buffer :=
  match b.pending with
  | none => (Except.error IngressError.noOpenRow, b)
  | some r =>
    if r.timestamp ≠ none then (Except.error IngressError.timestampAlreadySet, b)
    else if ¬ (tsMin ≤ t ∧ t ≤ tsMax) then (Except.error IngressError.range, b)
    else (Except.ok (), { b with pending := some { r with timestamp := some t } })

/-- Modelled from the spec: `discard_row()` — rolls back to the pre-row
mark, leaving the Buffer as if the row had never been started. -/
def discardRow (b : Buffer) : Buffer :=
  { b with pending := none }

/-- Modelled from the spec: `commit_row()` — fails with `EmptyRowError`
when no field was added (implicitly discarding the row); on success
appends the row's serialized bytes to the committed region. -/
def commitRow (b : Buffer) : Except IngressError Unit × Buffer :=
  match b.pending with
  | none => (Except.error IngressError.noOpenRow, b)
  | some r =>
    if r.fields = [] then
      (Except.error IngressError.emptyRow, { b with pending := none })
    else
      (Except.ok (), Buffer.mk (b.committed ++ serializeRow r) none)

/-- One row-building call made between `begin_row` and
`commit_row`/`discard_row`. -/
inductive RowOp where
  | symbol (n v : List Char)
  | field (n : List Char) (v : FValue)
  | tstamp (t : Int)
deriving DecidableEq, Repr

/-- Apply one row-building call, keeping the buffer state it leaves
behind (on error the call leaves the buffer as it found it). -/
def applyOp (b : Buffer) (op : RowOp) : Buffer :=
  match op with
  | RowOp.symbol n v => (addSymbol n v b).2
  | RowOp.field n v => (addField n v b).2
  | RowOp.tstamp t => (setTimestamp t b).2

/-- Apply a sequence of row-building calls. -/
def applyOps (b : Buffer) (ops : List RowOp) : Buffer :=
  ops.foldl applyOp b

/-- Modelled from the spec: outcome of one transport send attempt. -/
inductive SendOutcome where
  | ok
  | connError
  | rejected
deriving DecidableEq, Repr

/-- Modelled from the spec: flush-level failures surfaced to the caller. -/
inductive FlushFailure where
  | flushError
  | rejectedError
deriving DecidableEq, Repr

/-- Modelled from the spec: the Sender Session — its Buffer, the retry
attempt limit, the rows committed since the last flush and the auto-flush
thresholds. -/
structure Session where
  buffer : Buffer
  attemptLimit : Nat
  rowsSinceFlush : Nat
  autoFlushBytes : Nat
  autoFlushRows : Nat
deriving Repr

/-- Modelled from the spec: the flush retry loop.  `n` attempts remain,
`i` attempts were already made; the oracle gives each attempt's outcome.
Transient `connError` is retried; `rejected` (a server-confirmed data
defect) is surfaced immediately; exhausting the budget surfaces
`flushError`.  Returns the result and the total number of attempts
made. -/
def flushLoop (oracle : Nat → SendOutcome) :
    Nat → Nat → Except FlushFailure Unit × Nat
  | 0, i => (Except.error FlushFailure.flushError, i)
  | n + 1, i =>
    match oracle i with
    | SendOutcome.ok => (Except.ok (), i + 1)
    | SendOutcome.rejected => (Except.error FlushFailure.rejectedError, i + 1)
    | SendOutcome.connError => flushLoop oracle n (i + 1)

/-- Modelled from the spec: `flush()` — sends the committed buffer
through the transport with up to `attemptLimit` attempts; on success the
buffer is drained, on failure it is left fully intact.  Returns the
result, the number of attempts made and the resulting session. -/
def flush (s : Session) (oracle : Nat → SendOutcome) :
    Except FlushFailure Unit × Nat × Session :=
  let r := flushLoop oracle s.attemptLimit 0
  match r.1 with
  | Except.ok _ =>
    (Except.ok (), r.2,
      { s with buffer := Buffer.mk [] s.buffer.pending, rowsSinceFlush := 0 })
  | Except.error e => (Except.error e, r.2, s)

/-- Modelled from the spec: `commit_row` followed by the auto-flush
trigger check — if the committed byte size or the row count reaches its
threshold, the buffer is flushed (drained) before control returns.
Returns the commit result, whether an auto-flush fired, and the resulting
session. -/
def commitRowAuto (s : Session) : Except IngressError Unit × Bool × Session :=
  match commitRow s.buffer with
  | (Except.error e, b2) => (Except.error e, false, { s with buffer := b2 })
  | (Except.ok _, b2) =>
    if s.autoFlushBytes ≤ b2.committed.length ∨
        s.autoFlushRows ≤ s.rowsSinceFlush + 1 then
      (Except.ok (), true,
        { s with buffer := Buffer.mk [] b2.pending, rowsSinceFlush := 0 })
    else
      (Except.ok (), false,
        { s with buffer := b2, rowsSinceFlush := s.rowsSinceFlush + 1 })

/-- Modelled from the spec: a valid row as the round-trip property needs
it — non-empty table name, at least one field, in-range timestamp. -/
def validRow (r : Row) : Prop :=
  r.table ≠ [] ∧ r.fields ≠ [] ∧ ∀ t ∈ r.timestamp, tsMin ≤ t ∧ t ≤ tsMax


/-- Opening a row with `begin_row` never changes the committed bytes. -/
theorem beginRow_committed (t : List Char) (b : Buffer) :
    (beginRow t b).2.committed = b.committed := by
  rw [beginRow]
  split_ifs <;> rfl

/-- Adding a symbol never changes the committed bytes. -/
theorem addSymbol_committed (n v : List Char) (b : Buffer) :
    (addSymbol n v b).2.committed = b.committed := by
  cases hp : b.pending with
  | none => simp [addSymbol, hp]
  | some r =>
    simp only [addSymbol, hp]
    split_ifs <;> rfl

/-- Adding a field never changes the committed bytes. -/
theorem addField_committed (n : List Char) (v : FValue) (b : Buffer) :
    (addField n v b).2.committed = b.committed := by
  cases hp : b.pending with
  | none => simp [addField, hp]
  | some r =>
    simp only [addField, hp]
    split_ifs <;> rfl

/-- Setting the timestamp never changes the committed bytes. -/
theorem setTimestamp_committed (t : Int) (b : Buffer) :
    (setTimestamp t b).2.committed = b.committed := by
  cases hp : b.pending with
  | none => simp [setTimestamp, hp]
  | some r =>
    simp only [setTimestamp, hp]
    split_ifs <;> rfl

/-- No single row-building call changes the committed bytes. -/
theorem applyOp_committed (b : Buffer) (op : RowOp) :
    (applyOp b op).committed = b.committed := by
  cases op with
  | symbol n v => exact addSymbol_committed n v b
  | field n v => exact addField_committed n v b
  | tstamp t => exact setTimestamp_committed t b

/-- No sequence of row-building calls changes the committed bytes. -/
theorem applyOps_committed (ops : List RowOp) :
    ∀ b : Buffer, (applyOps b ops).committed = b.committed := by
  induction ops with
  | nil => intro b; rfl
  | cons op ops ih =>
    intro b
    have h1 : applyOps b (op :: ops) = applyOps (applyOp b op) ops := rfl
    rw [h1, ih (applyOp b op), applyOp_committed]

/-- Under an always-failing transport the retry loop uses its whole
attempt budget and surfaces `flushError`. -/
theorem flushLoop_conn (oracle : Nat → SendOutcome)
    (h : ∀ j, oracle j = SendOutcome.connError) :
    ∀ n i, flushLoop oracle n i = (Except.error FlushFailure.flushError, i + n) := by
  intro n
  induction n with
  | zero => intro i; rfl
  | succ n ih =>
    intro i
    rw [flushLoop, h i, ih (i + 1)]
    have h2 : i + 1 + n = i + (n + 1) := by omega
    rw [h2]

end QuestDBCore

open QuestDBSetup QuestDBCore

/-! Concrete instances used by the claim witnesses. -/

/-- An environment with only the fuzzing switch set. -/
def envFuzzOnly : Env := fun k => if k = "TEST_QUESTDB_FUZZING" then some "1" else none

/-- The empty environment. -/
def envEmpty : Env := fun _ => none

/-- An environment with the fuzzing switch set and an original CC. -/
def envC10 : Env := fun k =>
  if k = "TEST_QUESTDB_FUZZING" then some "1"
  else if k = "CC" then some "gcc" else none

/-- A buffer with committed bytes and a pending zero-field row. -/
def bufC3 : Buffer :=
  Buffer.mk ['x'] (some (Row.mk ['t'] [(['s'], ['v'])] [] (some 5)))

/-- The spec's end-to-end example row: `table="sensor"`, symbol
`city=ldn`, float field `temp=21.5`, timestamp 1000. -/
def rowC5 : Row :=
  Row.mk ['s', 'e', 'n', 's', 'o', 'r'] [(['c', 'i', 't', 'y'], ['l', 'd', 'n'])]
    [(['t', 'e', 'm', 'p'], FValue.ffloat 215 1)] (some 1000)

/-- A session holding two committed bytes, with attempt limit three. -/
def sessC6 : Session := Session.mk (Buffer.mk ['a', 'b'] none) 3 2 100 100

/-- A transport that fails with a transient connection error on every
attempt. -/
def oracleC6 : Nat → SendOutcome := fun _ => SendOutcome.connError

/-- A one-field row for the auto-flush witness. -/
def rowC7 : Row := Row.mk ['t'] [] [(['a'], FValue.fbool true)] none

/-- A session whose byte threshold any committed row crosses. -/
def sessC7 : Session := Session.mk (Buffer.mk [] (some rowC7)) 1 0 1 10

/-- A world in which the submodule is missing and no switch is set. -/
def worldC2 : BuildWorld := BuildWorld.mk false none true true true none true true

/-- C1: the claim that no operation mutates process-global state fails on
the code: with `TEST_QUESTDB_FUZZING=1`, module initialization overwrites
`CC` in the process environment (it becomes `clang` where it was unset). -/
theorem C1_no_process_global_state_counterexample :
    (moduleInit envFuzzOnly).env "CC" = some "clang" ∧
    envFuzzOnly "CC" = none ∧
    (moduleInit envFuzzOnly).env "CC" ≠ envFuzzOnly "CC" := by
  refine ⟨?_, ?_, ?_⟩ <;> decide

/-- C1 (amended): module initialization leaves the process environment
untouched unless `TEST_QUESTDB_FUZZING=1`, and even then mutates nothing
beyond the `CC` and `CXX` variables. -/
theorem C1_no_process_global_state (e : Env) :
    (e "TEST_QUESTDB_FUZZING" ≠ some "1" →
      (moduleInit e).env = e ∧ (moduleInit e).instrumentFuzzing = false) ∧
    (∀ k, k ≠ "CC" → k ≠ "CXX" → (moduleInit e).env k = e k) := by
  constructor
  · intro h
    rw [moduleInit, if_neg h]
    exact ⟨rfl, rfl⟩
  · intro k hk1 hk2
    rw [moduleInit]
    split_ifs with h
    · simp [envSet, hk1, hk2]
    · rfl

/-- C1 witness: the amended statement at the empty environment. -/
theorem C1_no_process_global_state_witness :
    envEmpty "TEST_QUESTDB_FUZZING" ≠ some "1" ∧
    (moduleInit envEmpty).env = envEmpty :=
  ⟨by decide, ((C1_no_process_global_state envEmpty).1 (by decide)).1⟩

/-- C3: committing a row with zero fields (any symbols, any timestamp)
fails with `EmptyRowError` and leaves the committed bytes unchanged. -/
theorem C3_empty_row_commit (b : Buffer) (r : Row)
    (hp : b.pending = some r) (hf : r.fields = []) :
    (commitRow b).1 = Except.error IngressError.emptyRow ∧
    (commitRow b).2.committed = b.committed := by
  simp [commitRow, hp, hf]

/-- C3 witness: a concrete buffer with a pending symbols-and-timestamp
row and no fields. -/
theorem C3_empty_row_commit_witness :
    (commitRow bufC3).1 = Except.error IngressError.emptyRow ∧
    (commitRow bufC3).2.committed = ['x'] :=
  C3_empty_row_commit bufC3 (Row.mk ['t'] [(['s'], ['v'])] [] (some 5)) rfl rfl

/-- C4: after `begin_row` and any sequence of row-building calls,
`discard_row` leaves the committed bytes byte-identical to before
`begin_row`. -/
theorem C4_discard_restores (b : Buffer) (t : List Char) (ops : List RowOp) :
    (discardRow (applyOps (beginRow t b).2 ops)).committed = b.committed := by
  calc (discardRow (applyOps (beginRow t b).2 ops)).committed
      = (applyOps (beginRow t b).2 ops).committed := rfl
    _ = (beginRow t b).2.committed := applyOps_committed ops _
    _ = b.committed := beginRow_committed t b

/-- C5: every valid row (non-empty table name, at least one field,
in-range optional timestamp) committed to the wire form and parsed back
by the reference ILP parser decodes to exactly the original table,
symbols, fields and timestamp. -/
theorem C5_roundtrip (r : Row) (h : validRow r) :
    parseRow (serializeRow r) = some r :=
  parseRow_serializeRow r h.2.1

/-- C5 witness: the spec's end-to-end example row round-trips. -/
theorem C5_roundtrip_witness :
    validRow rowC5 ∧ parseRow (serializeRow rowC5) = some rowC5 :=
  ⟨⟨by decide, by decide, by intro t ht; simp [rowC5] at ht; subst ht; decide⟩,
   C5_roundtrip rowC5
     ⟨by decide, by decide, by intro t ht; simp [rowC5] at ht; subst ht; decide⟩⟩

/-- C6: when every transport attempt fails with a transient connection
error, `flush` makes exactly the configured number of attempts, surfaces
`FlushError`, and returns the session — buffer included — exactly as it
was (nothing dropped or drained). -/
theorem C6_flush_retry_exhaustion (s : Session) (oracle : Nat → SendOutcome)
    (h : ∀ j, oracle j = SendOutcome.connError) :
    flush s oracle =
      (Except.error FlushFailure.flushError, s.attemptLimit, s) := by
  have hl := flushLoop_conn oracle h s.attemptLimit 0
  simp only [flush, hl]
  simp

/-- C6 witness: a concrete session and an always-failing transport. -/
theorem C6_flush_retry_exhaustion_witness :
    (∀ j, oracleC6 j = SendOutcome.connError) ∧
    flush sessC6 oracleC6 =
      (Except.error FlushFailure.flushError, 3, sessC6) :=
  ⟨fun _ => rfl, C6_flush_retry_exhaustion sessC6 oracleC6 (fun _ => rfl)⟩

/-- C7: the auto-flush check after a successful `commit_row` fires
exactly when the committed byte size or the row count reaches its
threshold (never before), and firing drains the buffer and resets the row
count, so the same crossing cannot fire twice. -/
theorem C7_autoflush_trigger (s : Session) (r : Row)
    (hp : s.buffer.pending = some r) (hf : r.fields ≠ []) :
    ((commitRowAuto s).2.1 = true ↔
      (s.autoFlushBytes ≤ (s.buffer.committed ++ serializeRow r).length ∨
        s.autoFlushRows ≤ s.rowsSinceFlush + 1)) ∧
    ((commitRowAuto s).2.1 = true →
      (commitRowAuto s).2.2.buffer.committed = [] ∧
      (commitRowAuto s).2.2.rowsSinceFlush = 0) ∧
    ((commitRowAuto s).2.1 = false →
      (commitRowAuto s).2.2.buffer.committed =
        s.buffer.committed ++ serializeRow r ∧
      (commitRowAuto s).2.2.rowsSinceFlush = s.rowsSinceFlush + 1) := by
  have hc : commitRow s.buffer =
      (Except.ok (), Buffer.mk (s.buffer.committed ++ serializeRow r) none) := by
    simp [commitRow, hp, hf]
  simp only [commitRowAuto, hc]
  split_ifs with ht
  · refine ⟨?_, fun _ => ⟨rfl, rfl⟩, fun hx => by simp at hx⟩
    simpa using ht
  · refine ⟨?_, fun hx => by simp at hx, fun _ => ⟨rfl, rfl⟩⟩
    simpa using ht

/-- C7 witness: a session whose one-byte threshold any committed row
crosses — the flush fires and drains the buffer. -/
theorem C7_autoflush_trigger_witness :
    (commitRowAuto sessC7).2.1 = true ∧
    (commitRowAuto sessC7).2.2.buffer.committed = [] := by
  have h := C7_autoflush_trigger sessC7 rowC7 rfl (by decide)
  have ht : (commitRowAuto sessC7).2.1 = true := h.1.mpr (by decide)
  exact ⟨ht, (h.2.1 ht).1⟩

/-- C10: with fuzzing instrumentation on, the environment handed to the
cargo subprocess restores `CC` and `CXX` to their original values (set
back when one existed, deleted otherwise), the process environment keeps
the clang overrides, and every other variable passes through
unchanged. -/
theorem C10_cargo_env_restored (e : Env)
    (h : e "TEST_QUESTDB_FUZZING" = some "1") :
    cargoEnv (moduleInit e) "CC" = e "CC" ∧
    cargoEnv (moduleInit e) "CXX" = e "CXX" ∧
    (moduleInit e).env "CC" = some "clang" ∧
    (moduleInit e).env "CXX" = some "clang++" ∧
    (∀ k, k ≠ "CC" → k ≠ "CXX" →
      cargoEnv (moduleInit e) k = (moduleInit e).env k) := by
  have hm : moduleInit e = InitState.mk true (e "CC") (e "CXX")
      (envSet (envSet e "CC" "clang") "CXX" "clang++") := by
    rw [moduleInit, if_pos h]
  rw [hm]
  have hccx : ("CC" : String) ≠ "CXX" := by decide
  have hcxc : ("CXX" : String) ≠ "CC" := by decide
  refine ⟨?_, ?_, ?_, ?_, ?_⟩
  · cases hcc : e "CC" <;> cases hcxx : e "CXX" <;>
      simp [cargoEnv, envSet, envDel, hccx, hcxc]
  · cases hcc : e "CC" <;> cases hcxx : e "CXX" <;>
      simp [cargoEnv, envSet, envDel, hccx, hcxc]
  · simp [envSet, envDel, hccx, hcxc]
  · simp [envSet, envDel]
  · intro k hk1 hk2
    cases hcc : e "CC" <;> cases hcxx : e "CXX" <;>
      simp [cargoEnv, envSet, envDel, hk1, hk2]

/-- C10 witness: fuzzing on, original CC present, CXX absent — the cargo
environment restores CC to `gcc` and deletes CXX. -/
theorem C10_cargo_env_restored_witness :
    envC10 "TEST_QUESTDB_FUZZING" = some "1" ∧
    cargoEnv (moduleInit envC10) "CC" = some "gcc" ∧
    cargoEnv (moduleInit envC10) "CXX" = none :=
  ⟨by decide, (C10_cargo_env_restored envC10 (by decide)).1,
   (C10_cargo_env_restored envC10 (by decide)).2.1⟩

/-- C2: `cargo_build` swallows no failure: it returns normally only when
the submodule was present or successfully initialized, cargo was found or
successfully provisioned, and the build subprocess succeeded; every
`sys.exit` path uses a non-zero code and writes a diagnostic first (the
remaining paths raise). -/
theorem C2_no_silent_failure (w : BuildWorld) :
    (cargoBuild w = BuildOutcome.ok →
      (w.submoduleExists = true ∨
        (w.envSubmoduleInit = some "1" ∧ w.gitUpdateOk = true)) ∧
      (w.cargoOnPath = true ∨ w.cargoPathExists = true ∨
        (w.envRustupInstall = some "1" ∧ w.installRustOk = true)) ∧
      w.cargoCallOk = true) ∧
    (∀ c d, cargoBuild w = BuildOutcome.exited c d → c ≠ 0 ∧ d ≠ []) := by
  rw [cargoBuild]
  split_ifs with h1 h2 h3 h4 h5
  · refine ⟨fun hok => by simp at hok, fun c d hex => ?_⟩
    simp only [BuildOutcome.exited.injEq] at hex
    rw [← hex.1, ← hex.2]
    exact ⟨by decide, by simp [submoduleDiag]⟩
  · exact ⟨fun hok => by simp at hok, fun c d hex => by simp at hex⟩
  · refine ⟨fun hok => by simp at hok, fun c d hex => ?_⟩
    simp only [BuildOutcome.exited.injEq] at hex
    rw [← hex.1, ← hex.2]
    exact ⟨by decide, by simp [cargoDiag]⟩
  · exact ⟨fun hok => by simp at hok, fun c d hex => by simp at hex⟩
  · refine ⟨fun _ => ?_, fun c d hex => by simp at hex⟩
    simp only [not_and, not_not, Bool.not_eq_true, ne_eq] at h1 h2 h3 h4
    refine ⟨?_, ?_, h5⟩
    · by_cases hs : w.submoduleExists = true
      · exact Or.inl hs
      · have hsf : w.submoduleExists = false := by
          simpa using hs
        exact Or.inr ⟨h1 hsf, by simpa using h2 hsf⟩
    · by_cases hc : w.cargoOnPath = true
      · exact Or.inl hc
      · have hcf : w.cargoOnPath = false := by
          simpa using hc
        by_cases hp : w.cargoPathExists = true
        · exact Or.inr (Or.inl hp)
        · have hpf : w.cargoPathExists = false := by
            simpa using hp
          exact Or.inr (Or.inr ⟨h3 hcf hpf, by simpa using h4 hcf hpf⟩)
  · exact ⟨fun hok => by simp at hok, fun c d hex => by simp at hex⟩

/-- C2 witness: the world with a missing submodule and no switches set
exits with code 1 after a diagnostic. -/
theorem C2_no_silent_failure_witness :
    cargoBuild worldC2 = BuildOutcome.exited 1 submoduleDiag ∧
    ((1 : Nat) ≠ 0 ∧ submoduleDiag ≠ []) :=
  ⟨by decide, (C2_no_silent_failure worldC2).2 1 submoduleDiag (by decide)⟩

/-- C8: `ingress_extension` raises for every platform other than darwin,
win32 and linux; on those three it returns an extension whose static
library objects carry the platform's prefix and suffix (`lib`/`.a` on
darwin and linux, empty/`.lib` on win32). -/
theorem C8_platform_dispatch :
    (∀ pf md instr, pf ≠ "darwin" → pf ≠ "win32" → pf ≠ "linux" →
      ingressExtension pf md instr =
        Except.error ("Unsupported platform: " ++ pf)) ∧
    (∀ md instr, ∃ e, ingressExtension "darwin" md instr = Except.ok e ∧
      e.extraObjects = [pathJoin e.libDir ("lib" ++ "questdb_client" ++ ".a"),
        pathJoin e.libDir ("lib" ++ "pystr_to_utf8" ++ ".a")]) ∧
    (∀ md instr, ∃ e, ingressExtension "win32" md instr = Except.ok e ∧
      e.extraObjects = [pathJoin e.libDir ("" ++ "questdb_client" ++ ".lib"),
        pathJoin e.libDir ("" ++ "pystr_to_utf8" ++ ".lib")]) ∧
    (∀ md instr, ∃ e, ingressExtension "linux" md instr = Except.ok e ∧
      e.extraObjects = [pathJoin e.libDir ("lib" ++ "questdb_client" ++ ".a"),
        pathJoin e.libDir ("lib" ++ "pystr_to_utf8" ++ ".a")]) := by
  refine ⟨?_, fun md instr => ⟨_, rfl, rfl⟩, fun md instr => ⟨_, rfl, rfl⟩,
    fun md instr => ⟨_, rfl, rfl⟩⟩
  intro pf md instr h1 h2 h3
  simp [ingressExtension, h1, h2, h3]

/-- C8 witness: an unsupported platform errors. -/
theorem C8_platform_dispatch_witness :
    ingressExtension "plan9" "64bit" false =
      Except.error ("Unsupported platform: " ++ "plan9") :=
  C8_platform_dispatch.1 "plan9" "64bit" false (by decide) (by decide) (by decide)

/-- C9: the i686 target directory and the `--target` cargo flag are used
exactly for a 32-bit win32 build; in every other supported case the
extension uses `target/release` with no target flag, and its compile and
link flags carry `-fsanitize=fuzzer-no-link` when fuzzing is instrumented
and `-flto` otherwise. -/
theorem C9_win32_target :
    (∀ pf md, ("--target=" ++ WIN_32BIT_CARGO_TARGET) ∈ cargoBuildArgs pf md ↔
      (pf = "win32" ∧ md = "32bit")) ∧
    (∀ pf md instr e, ingressExtension pf md instr = Except.ok e →
      ((pf = "win32" ∧ md = "32bit") →
        e.libDir = ["target", WIN_32BIT_CARGO_TARGET, "release"] ∧
        e.extraCompileArgs = [] ∧ e.extraLinkArgs = []) ∧
      (¬(pf = "win32" ∧ md = "32bit") →
        e.libDir = ["target", "release"] ∧
        e.extraCompileArgs =
          (if instr then ["-fsanitize=fuzzer-no-link"] else ["-flto"]) ∧
        (if instr then "-fsanitize=fuzzer-no-link" else "-flto") ∈
          e.extraLinkArgs)) := by
  constructor
  · intro pf md
    by_cases h : pf = "win32" ∧ md = "32bit"
    · simp only [cargoBuildArgs, if_pos h]
      simp [h]
    · simp only [cargoBuildArgs, if_neg h]
      constructor
      · intro hmem
        exact absurd hmem (by decide)
      · intro hc
        exact absurd hc h
  · intro pf md instr e hok
    by_cases hd : pf = "darwin"
    · subst hd
      injection hok with he
      subst he
      refine ⟨fun hx => absurd hx.1 (by decide), fun _ => ⟨rfl, rfl, ?_⟩⟩
      cases instr <;> simp
    · by_cases hw : pf = "win32"
      · subst hw
        by_cases hm : md = "32bit"
        · subst hm
          injection hok with he
          subst he
          exact ⟨fun _ => ⟨rfl, rfl, rfl⟩, fun hx => absurd ⟨rfl, rfl⟩ hx⟩
        · have hcond : ¬(("win32" : String) = "win32" ∧ md = "32bit") :=
            fun hx => hm hx.2
          injection hok with he
          subst he
          refine ⟨fun hx => absurd hx hcond, fun _ => ⟨?_, ?_, ?_⟩⟩
          · simp [hm]
          · simp [hm]
          · cases instr <;> simp [hm]
      · by_cases hl : pf = "linux"
        · subst hl
          injection hok with he
          subst he
          refine ⟨fun hx => absurd hx.1 (by decide), fun _ => ⟨rfl, rfl, ?_⟩⟩
          cases instr <;> simp
        · have herr : ingressExtension pf md instr =
              Except.error ("Unsupported platform: " ++ pf) := by
            simp [ingressExtension, hd, hw, hl]
          rw [herr] at hok
          simp at hok

/-- C9 witness: the target flag is present exactly in the win32 32-bit
configuration. -/
theorem C9_win32_target_witness :
    ("--target=" ++ WIN_32BIT_CARGO_TARGET) ∈ cargoBuildArgs "win32" "32bit" :=
  (C9_win32_target.1 "win32" "32bit").mpr ⟨rfl, rfl⟩
